import Mathlib

/-!
Shallow embedding of the minesweeper board engine (`src/minesweeper.rs`),
together with theorems settling the specification claims about it.

Machine integers (`u32`) are modelled as `Nat`; the `squares` vector is a
`List Square` indexed exactly as the Rust code indexes its `Vec<Square>`
(`idx = y * width + x`).  Fallible operations return `Except Err _`; the
process-wide random source of `populate_mines_around` is modelled as an
explicit list of draws; the unbounded mutual recursion of
`reveal`/`cascade_from`/`reveal_protected` is modelled with a fuel
parameter, and fuel sufficiency is proved.
-/

namespace Minesweeper

/-- Error kinds of the engine (`enum Error`). -/
inductive Err where
  | ExcessiveMines
  | InvalidCoordinates
  | IndexOutOfBounds
  | InvalidCascade
  | UnexpectedResult
  deriving DecidableEq, Repr

/-- Mine-presence type of a square (`enum SquareType`). -/
inductive SquareType where
  | Empty
  | Mine
  deriving DecidableEq, Repr

/-- One minesweeper square (`struct Square`). -/
structure Square where
  is_revealed : Bool
  is_flagged : Bool
  square_type : SquareType
  numeral : Nat
  deriving DecidableEq, Repr

/-- `Square::default()`: empty, unrevealed, unflagged, numeral 0. -/
def Square.default : Square :=
  { is_revealed := false, is_flagged := false, square_type := .Empty, numeral := 0 }

/-- `Square::default_mine()`. -/
def Square.default_mine : Square :=
  { is_revealed := false, is_flagged := false, square_type := .Mine, numeral := 0 }

/-- `Square::is_mine()`. -/
def Square.is_mine (s : Square) : Bool :=
  match s.square_type with
  | .Mine => true
  | .Empty => false

/-- An (x, y) board coordinate (`struct Coordinate`). -/
structure Coordinate where
  x : Nat
  y : Nat
  deriving DecidableEq, Repr

/-- Play modes routed by `play` (`enum RevealType`). -/
inductive RevealType where
  | Reveal
  | Chord
  | Flag
  deriving DecidableEq, Repr

/-- Result of one play operation (`enum PlayResult`). -/
inductive PlayResult where
  | Flagged : Bool → PlayResult
  | Explosion : Coordinate → PlayResult
  | NoChange : PlayResult
  | Revealed : Coordinate → PlayResult
  | CascadedReveal : List PlayResult → PlayResult

/-- The game board (`struct GameBoard`). -/
structure GameBoard where
  width : Nat
  height : Nat
  num_mines : Nat
  squares : List Square
  is_populated : Bool

/-- Point update of a list, no-op when the index is out of range (used to
model in-bounds `Vec` writes such as `self.squares[idx] = ...`). -/
def setAt (l : List Square) (i : Nat) (f : Square → Square) : List Square :=
  match l, i with
  | [], _ => []
  | s :: t, 0 => f s :: t
  | s :: t, n + 1 => s :: setAt t n f

theorem setAt_length (l : List Square) (i : Nat) (f : Square → Square) :
    (setAt l i f).length = l.length := by
  induction l generalizing i with
  | nil => rfl
  | cons s t ih =>
    cases i with
    | zero => rfl
    | succ n => simp [setAt, ih]

theorem setAt_get?_self (l : List Square) (i : Nat) (f : Square → Square) :
    (setAt l i f).get? i = (l.get? i).map f := by
  induction l generalizing i with
  | nil => cases i <;> rfl
  | cons s t ih =>
    cases i with
    | zero => rfl
    | succ n => simpa [setAt] using ih n

theorem setAt_get?_ne (l : List Square) (i j : Nat) (f : Square → Square)
    (h : j ≠ i) : (setAt l i f).get? j = l.get? j := by
  induction l generalizing i j with
  | nil => cases i <;> rfl
  | cons s t ih =>
    cases i with
    | zero =>
      cases j with
      | zero => exact absurd rfl h
      | succ m => rfl
    | succ n =>
      cases j with
      | zero => rfl
      | succ m => simpa [setAt] using ih n m (fun hm => h (by omega))

namespace GameBoard

/-- `GameBoard::new(width, height)`. -/
def new (width height : Nat) : GameBoard :=
  { width := width, height := height, num_mines := 0,
    squares := List.replicate (width * height) Square.default,
    is_populated := false }

/-- `GameBoard::reset()`: fresh default squares, same dimensions; `num_mines`
and `is_populated` are left untouched by the source. -/
def reset (b : GameBoard) : GameBoard :=
  { b with squares := List.replicate (b.width * b.height) Square.default }

/-- `xy_to_idx`. -/
def xy_to_idx (b : GameBoard) (x y : Nat) : Nat :=
  y * b.width + x

/-- `idx_to_xy`. -/
def idx_to_xy (b : GameBoard) (idx : Nat) : Except Err Coordinate :=
  if idx ≥ b.squares.length then .error .IndexOutOfBounds
  else .ok ⟨idx % b.width, idx / b.width⟩

/-- `get_square_by_idx`. -/
def get_square_by_idx (b : GameBoard) (idx : Nat) : Except Err Square :=
  match b.squares.get? idx with
  | none => .error .InvalidCoordinates
  | some s => .ok s

/-- `get_square`. -/
def get_square (b : GameBoard) (x y : Nat) : Except Err Square :=
  if x ≥ b.width ∨ y ≥ b.height then .error .InvalidCoordinates
  else b.get_square_by_idx (b.xy_to_idx x y)

/-- `is_mine_protected`: mine test tolerating negative and out-of-range
coordinates. -/
def is_mine_protected (b : GameBoard) (x y : Int) : Bool :=
  if x < 0 then false
  else if y < 0 then false
  else
    match b.get_square x.toNat y.toNat with
    | .ok s => s.is_mine
    | .error _ => false

/-- `is_flagged_protected`. -/
def is_flagged_protected (b : GameBoard) (x y : Int) : Bool :=
  if x < 0 then false
  else if y < 0 then false
  else
    match b.get_square x.toNat y.toNat with
    | .ok s => s.is_flagged
    | .error _ => false

end GameBoard

/-- The offset enumeration `iproduct!(-1_i32..2_i32, -1_i32..2_i32)`:
dx outer, dy inner, the (0,0) self-offset included. -/
def offsets : List (Int × Int) :=
  [(-1, -1), (-1, 0), (-1, 1), (0, -1), (0, 0), (0, 1), (1, -1), (1, 0), (1, 1)]

namespace GameBoard

/-- `flagged_neighbor_count` (note: the loop includes the (0,0) offset, so a
flag on the square itself is counted). -/
def flagged_neighbor_count (b : GameBoard) (x y : Nat) : Except Err Nat :=
  if x ≥ b.width ∨ y ≥ b.height then .error .InvalidCoordinates
  else
    .ok ((offsets.map fun d =>
      if b.is_flagged_protected ((x : Int) + d.1) ((y : Int) + d.2) then 1 else 0).sum)

/-- `mined_neighbor_count` (note: the loop includes the (0,0) offset, so a
mine on the square itself is counted). -/
def mined_neighbor_count (b : GameBoard) (x y : Nat) : Except Err Nat :=
  if x ≥ b.width ∨ y ≥ b.height then .error .InvalidCoordinates
  else
    .ok ((offsets.map fun d =>
      if b.is_mine_protected ((x : Int) + d.1) ((y : Int) + d.2) then 1 else 0).sum)

end GameBoard

/-- The cell enumeration `iproduct!(0..width, 0..height)`: x outer, y inner. -/
def cellList (w h : Nat) : List (Nat × Nat) :=
  ((List.range w).map fun x => (List.range h).map fun y => (x, y)).flatten

namespace GameBoard

/-- One step of `populate_numerals`: store the current mined-neighbor count
of cell (x, y) into its numeral (`unwrap_or(0)` on the count). -/
def numeralStep (b : GameBoard) (c : Nat × Nat) : GameBoard :=
  let value : Nat :=
    match b.mined_neighbor_count c.1 c.2 with
    | .ok n => n
    | .error _ => 0
  let sqs := setAt b.squares (b.xy_to_idx c.1 c.2) fun s => { s with numeral := value }
  { b with squares := sqs }

/-- `populate_numerals`. -/
def populate_numerals (b : GameBoard) : GameBoard :=
  (cellList b.width b.height).foldl numeralStep b

/-- `flag`: toggles the flag of an unrevealed square. -/
def flag (b : GameBoard) (x y : Nat) : GameBoard × Except Err PlayResult :=
  if x ≥ b.width ∨ y ≥ b.height then (b, .error .InvalidCoordinates)
  else
    let idx := b.xy_to_idx x y
    match b.get_square_by_idx idx with
    | .error e => (b, .error e)
    | .ok sqr =>
      if ¬sqr.is_revealed then
        let sqs := setAt b.squares idx fun s => { s with is_flagged := !sqr.is_flagged }
        ({ b with squares := sqs }, .ok (.Flagged (!sqr.is_flagged)))
      else
        (b, .ok .NoChange)

/-- `flag_all_mines`: sets every square's flag to its mine state. -/
def flag_all_mines (b : GameBoard) : GameBoard :=
  { b with squares := b.squares.map fun s => { s with is_flagged := s.is_mine } }

/-- `reset_existing`: clears every square's flag and revealed state. -/
def reset_existing (b : GameBoard) : GameBoard :=
  { b with squares := b.squares.map fun s =>
      { s with is_flagged := false, is_revealed := false } }

/-- `num_flags`. -/
def num_flags (b : GameBoard) : Nat :=
  (b.squares.map fun s => if s.is_flagged then 1 else 0).sum

/-- `is_win_configuration`. -/
def is_win_configuration (b : GameBoard) : Bool :=
  ((b.squares.map fun s => if ¬s.is_mine ∧ ¬s.is_revealed then 1 else 0).sum : Nat) = 0

/-- `is_loss_configuration`. -/
def is_loss_configuration (b : GameBoard) : Bool :=
  ((b.squares.map fun s => if s.is_mine ∧ s.is_revealed then 1 else 0).sum : Nat) > 0

/-- `can_chord_square`: numeral 0, or flagged count (self included) equal to
the numeral. -/
def can_chord_square (b : GameBoard) (x y : Nat) : Except Err Bool :=
  if x ≥ b.width ∨ y ≥ b.height then .error .InvalidCoordinates
  else
    match b.get_square x y with
    | .error e => .error e
    | .ok sqr =>
      match b.flagged_neighbor_count x y with
      | .error e => .error e
      | .ok fc =>
        if sqr.numeral = 0 ∨ sqr.numeral = fc then .ok true else .ok false

end GameBoard

/-- Number of squares not yet revealed; the termination measure of the
reveal/cascade recursion. -/
def countUnrevealed (b : GameBoard) : Nat :=
  b.squares.countP fun s => !s.is_revealed

/-- Number of squares holding a mine. -/
def mineCount (b : GameBoard) : Nat :=
  b.squares.countP fun s => s.is_mine

/-- Mark the square at `idx` revealed (`self.squares[idx].is_revealed = true`). -/
def setRevealed (b : GameBoard) (idx : Nat) : GameBoard :=
  { b with squares := setAt b.squares idx fun s => { s with is_revealed := true } }

/-- `reveal_protected` built over a given reveal function: negative
coordinates and errors are demoted to `NoChange`. -/
def revealProtWith (f : GameBoard → Nat → Nat → Option (GameBoard × Except Err PlayResult))
    (b : GameBoard) (x y : Int) : Option (GameBoard × PlayResult) :=
  if x < 0 then some (b, .NoChange)
  else if y < 0 then some (b, .NoChange)
  else
    match f b x.toNat y.toNat with
    | none => none
    | some (b', .ok r) => some (b', r)
    | some (b', .error _) => some (b', .NoChange)

/-- The neighbor sweep of `cascade_from`/`chord`: `reveal_protected` on every
offset in order, threading the mutated board left to right. -/
def neighborsWith (f : GameBoard → Nat → Nat → Option (GameBoard × Except Err PlayResult))
    (x y : Nat) : GameBoard → List (Int × Int) → Option (GameBoard × List PlayResult)
  | b, [] => some (b, [])
  | b, d :: ds =>
    match revealProtWith f b ((x : Int) + d.1) ((y : Int) + d.2) with
    | none => none
    | some (b', r) =>
      match neighborsWith f x y b' ds with
      | none => none
      | some (b'', rs) => some (b'', r :: rs)

/-- `cascade_from` built over a given reveal function: checks the cascade
precondition, marks the origin revealed, then sweeps the 9 offsets. -/
def cascadeWith (f : GameBoard → Nat → Nat → Option (GameBoard × Except Err PlayResult))
    (b : GameBoard) (x y : Nat) : Option (GameBoard × Except Err PlayResult) :=
  if x ≥ b.width ∨ y ≥ b.height then some (b, .error .InvalidCoordinates)
  else
    let idx := b.xy_to_idx x y
    let sqr := b.squares.getD idx Square.default
    if sqr.is_mine ∨ sqr.is_flagged ∨ sqr.numeral > 0 then
      some (b, .error .InvalidCascade)
    else
      match neighborsWith f x y (setRevealed b idx) offsets with
      | none => none
      | some (b', rs) => some (b', .ok (.CascadedReveal rs))

/-- The body of `reveal`, parameterised by the cascade it delegates to. -/
def revealGen (casc : GameBoard → Nat → Nat → Option (GameBoard × Except Err PlayResult))
    (b : GameBoard) (x y : Nat) : Option (GameBoard × Except Err PlayResult) :=
  if x ≥ b.width ∨ y ≥ b.height then some (b, .error .InvalidCoordinates)
  else
    let idx := b.xy_to_idx x y
    match b.get_square_by_idx idx with
    | .error e => some (b, .error e)
    | .ok sqr =>
      if sqr.is_mine && !sqr.is_flagged then
        some (setRevealed b idx, .ok (.Explosion ⟨x, y⟩))
      else if !sqr.is_mine && !sqr.is_flagged && !sqr.is_revealed then
        if sqr.numeral = 0 then casc b x y
        else some (setRevealed b idx, .ok (.Revealed ⟨x, y⟩))
      else
        some (b, .ok .NoChange)

/-- Fuel-indexed `reveal`: each nested cascade consumes one unit of fuel;
`none` means the fuel ran out (proved impossible for sufficient fuel below). -/
def revealF : Nat → GameBoard → Nat → Nat → Option (GameBoard × Except Err PlayResult)
  | 0 => revealGen fun _ _ _ => none
  | fuel + 1 => revealGen (cascadeWith (revealF fuel))

/-- `reveal`, run with provably sufficient fuel. -/
def reveal (b : GameBoard) (x y : Nat) : Option (GameBoard × Except Err PlayResult) :=
  revealF (countUnrevealed b + 1) b x y

/-- `cascade_from`, run with provably sufficient fuel. -/
def cascade_from (b : GameBoard) (x y : Nat) : Option (GameBoard × Except Err PlayResult) :=
  cascadeWith (revealF (countUnrevealed b + 1)) b x y

/-- `chord`. -/
def chord (b : GameBoard) (x y : Nat) : Option (GameBoard × Except Err PlayResult) :=
  if x ≥ b.width ∨ y ≥ b.height then some (b, .error .InvalidCoordinates)
  else
    match b.can_chord_square x y with
    | .error e => some (b, .error e)
    | .ok false => some (b, .ok .NoChange)
    | .ok true =>
      match neighborsWith (revealF (countUnrevealed b + 1)) x y b offsets with
      | none => none
      | some (b', rs) => some (b', .ok (.CascadedReveal rs))

/-- `play`: the dispatch over the three play modes. -/
def play (b : GameBoard) (x y : Nat) : RevealType → Option (GameBoard × Except Err PlayResult)
  | .Flag => some (b.flag x y)
  | .Reveal => reveal b x y
  | .Chord => chord b x y

/-- The placement loop of `populate_mines_around`, with the successive draws
of `thread_rng().gen_range(0..len - 1)` supplied as an explicit list (each
draw `r` denotes the sample `r % (len - 1)`); `none` models a loop that runs
out of randomness (nontermination) or a panicking empty sample range. -/
def placeLoop (kc : Option Coordinate) :
    GameBoard → Nat → List Nat → Option (GameBoard × Except Err Unit)
  | b, 0, _ => some (b, .ok ())
  | _, _ + 1, [] => none
  | b, need + 1, r :: rest =>
    if b.squares.length ≤ 1 then none
    else
      let idx := r % (b.squares.length - 1)
      match b.get_square_by_idx idx with
      | .error e => some (b, .error e)
      | .ok sqr =>
        match kc with
        | some c =>
          match b.idx_to_xy idx with
          | .error e => some (b, .error e)
          | .ok cc =>
            if ¬sqr.is_mine ∧ c ≠ cc then
              placeLoop kc
                { b with squares := setAt b.squares idx fun _ => Square.default_mine }
                need rest
            else
              placeLoop kc b (need + 1) rest
        | none =>
          if ¬sqr.is_mine then
            placeLoop kc
              { b with squares := setAt b.squares idx fun _ => Square.default_mine }
              need rest
          else
            placeLoop kc b (need + 1) rest

/-- `populate_mines_around`, over an explicit list of random draws. -/
def populate_mines_around (b : GameBoard) (n : Nat) (kc : Option Coordinate)
    (rands : List Nat) : Option (GameBoard × Except Err Unit) :=
  if n > b.width * b.height then some (b, .error .ExcessiveMines)
  else
    match placeLoop kc { b with num_mines := n } n rands with
    | none => none
    | some (b2, .error e) => some (b2, .error e)
    | some (b2, .ok ()) => some ({ b2 with is_populated := true }, .ok ())

/-- `populate_mines`. -/
def populate_mines (b : GameBoard) (n : Nat) (rands : List Nat) :
    Option (GameBoard × Except Err Unit) :=
  populate_mines_around b n none rands

/-- The square stored at (x, y), for stating theorems about board contents. -/
def squareAt (b : GameBoard) (x y : Nat) : Square :=
  b.squares.getD (b.xy_to_idx x y) Square.default

/-- The 8 proper neighbor offsets, the (0,0) self-offset excluded.  This is
the neighborhood the specification text describes; the source iterates
`offsets` (9 entries) instead. -/
def properOffsets : List (Int × Int) :=
  [(-1, -1), (-1, 0), (-1, 1), (0, -1), (0, 1), (1, -1), (1, 0), (1, 1)]

/-- Count of in-grid mined proper neighbors, following the specification's
words ("count of the 8 neighboring cells ... that contain a mine"). -/
def spec_neighbor_mine_count (b : GameBoard) (x y : Nat) : Nat :=
  (properOffsets.map fun d =>
    if b.is_mine_protected ((x : Int) + d.1) ((y : Int) + d.2) then 1 else 0).sum

/-- Count of flagged in-grid proper neighbors, following the specification's
words (the square itself not counted). -/
def spec_flagged_neighbor_count (b : GameBoard) (x y : Nat) : Nat :=
  (properOffsets.map fun d =>
    if b.is_flagged_protected ((x : Int) + d.1) ((y : Int) + d.2) then 1 else 0).sum

/-! ### Frame relations for the reveal/cascade recursion -/

/-- Square-level frame of a reveal: type, numeral and flag are untouched and
`is_revealed` only ever moves from `false` to `true`. -/
def SqFrame (s t : Square) : Prop :=
  t.square_type = s.square_type ∧ t.numeral = s.numeral ∧
    t.is_flagged = s.is_flagged ∧ (s.is_revealed = true → t.is_revealed = true)

theorem sqFrame_refl (s : Square) : SqFrame s s :=
  ⟨rfl, rfl, rfl, fun h => h⟩

theorem sqFrame_trans {s t u : Square} (h1 : SqFrame s t) (h2 : SqFrame t u) :
    SqFrame s u :=
  ⟨h2.1.trans h1.1, h2.2.1.trans h1.2.1, h2.2.2.1.trans h1.2.2.1,
    fun h => h2.2.2.2 (h1.2.2.2 h)⟩

/-- Board-level frame of a reveal: dimensions, mine budget and population
flag unchanged, squares related pointwise by `SqFrame`. -/
def BFrame (b b' : GameBoard) : Prop :=
  b'.width = b.width ∧ b'.height = b.height ∧ b'.num_mines = b.num_mines ∧
    b'.is_populated = b.is_populated ∧ List.Forall₂ SqFrame b.squares b'.squares

theorem forall₂_sqFrame_refl (l : List Square) : List.Forall₂ SqFrame l l := by
  induction l with
  | nil => exact .nil
  | cons s t ih => exact .cons (sqFrame_refl s) ih

theorem forall₂_sqFrame_trans {l m n : List Square}
    (h1 : List.Forall₂ SqFrame l m) (h2 : List.Forall₂ SqFrame m n) :
    List.Forall₂ SqFrame l n := by
  induction h1 generalizing n with
  | nil => cases h2; exact .nil
  | cons hst htail ih =>
    cases h2 with
    | cons htu h2tail => exact .cons (sqFrame_trans hst htu) (ih h2tail)

theorem bFrame_refl (b : GameBoard) : BFrame b b :=
  ⟨rfl, rfl, rfl, rfl, forall₂_sqFrame_refl b.squares⟩

theorem bFrame_trans {a b c : GameBoard} (h1 : BFrame a b) (h2 : BFrame b c) :
    BFrame a c :=
  ⟨h2.1.trans h1.1, h2.2.1.trans h1.2.1, h2.2.2.1.trans h1.2.2.1,
    h2.2.2.2.1.trans h1.2.2.2.1,
    forall₂_sqFrame_trans h1.2.2.2.2 h2.2.2.2.2⟩

theorem forall₂_get? {R : Square → Square → Prop} {l m : List Square}
    (h : List.Forall₂ R l m) (i : Nat) {s : Square} (hs : l.get? i = some s) :
    ∃ t, m.get? i = some t ∧ R s t := by
  induction h generalizing i with
  | nil => simp at hs
  | @cons a b l' m' hst htail ih =>
    cases i with
    | zero =>
      simp only [List.get?_cons_zero, Option.some.injEq] at hs
      subst hs
      exact ⟨b, rfl, hst⟩
    | succ n => simpa using ih n (by simpa using hs)

theorem forall₂_countP {R : Square → Square → Prop} {l m : List Square}
    (h : List.Forall₂ R l m) (p : Square → Bool)
    (hp : ∀ s t, R s t → p s = p t) : l.countP p = m.countP p := by
  induction h with
  | nil => rfl
  | cons hst htail ih =>
    simp only [List.countP_cons, ih, hp _ _ hst]

theorem forall₂_refl_of {R : Square → Square → Prop} (h : ∀ s, R s s) :
    ∀ l, List.Forall₂ R l l := by
  intro l
  induction l with
  | nil => exact .nil
  | cons s t ih => exact .cons (h s) ih

theorem forall₂_trans_of {R : Square → Square → Prop}
    (htr : ∀ a c d, R a c → R c d → R a d) {l m n : List Square}
    (h1 : List.Forall₂ R l m) (h2 : List.Forall₂ R m n) :
    List.Forall₂ R l n := by
  induction h1 generalizing n with
  | nil => cases h2; exact .nil
  | cons hst htail ih =>
    cases h2 with
    | cons htu h2tail => exact .cons (htr _ _ _ hst htu) (ih h2tail)

theorem forall₂_setAt {R : Square → Square → Prop} (hrefl : ∀ s, R s s)
    (l : List Square) (i : Nat) (f : Square → Square)
    (hf : ∀ s, R s (f s)) : List.Forall₂ R l (setAt l i f) := by
  induction l generalizing i with
  | nil => exact .nil
  | cons s t ih =>
    cases i with
    | zero => exact .cons (hf s) (forall₂_refl_of hrefl t)
    | succ n => exact .cons (hrefl s) (ih n)

theorem setRevealed_sqFrame (s : Square) :
    SqFrame s { s with is_revealed := true } :=
  ⟨rfl, rfl, rfl, fun _ => rfl⟩

theorem BFrame_setRevealed (b : GameBoard) (idx : Nat) :
    BFrame b (setRevealed b idx) :=
  ⟨rfl, rfl, rfl, rfl, forall₂_setAt sqFrame_refl _ _ _ setRevealed_sqFrame⟩

theorem forall₂_countP_le {R : Square → Square → Prop} {l m : List Square}
    (h : List.Forall₂ R l m) (p : Square → Bool)
    (hp : ∀ s t, R s t → p t = true → p s = true) :
    m.countP p ≤ l.countP p := by
  induction h with
  | nil => exact le_rfl
  | @cons s t l' m' hst htail ih =>
    simp only [List.countP_cons]
    have hone : (if p t then 1 else 0) ≤ (if p s then 1 else 0) := by
      by_cases ht : p t = true
      · simp [ht, hp _ _ hst ht]
      · simp [ht]
    omega

theorem BFrame.countUnrevealed_le {b b' : GameBoard} (h : BFrame b b') :
    countUnrevealed b' ≤ countUnrevealed b := by
  refine forall₂_countP_le h.2.2.2.2 _ ?_
  rintro s t ⟨-, -, -, hrev⟩ ht
  by_cases hs : s.is_revealed
  · simp [hrev hs] at ht
  · simpa using hs

theorem BFrame.mineCount_eq {b b' : GameBoard} (h : BFrame b b') :
    mineCount b' = mineCount b := by
  refine (forall₂_countP h.2.2.2.2 _ ?_).symm
  rintro s t ⟨hty, -, -, -⟩
  simp [Square.is_mine, hty]

theorem BFrame.get? {b b' : GameBoard} (h : BFrame b b') {idx : Nat} {s : Square}
    (hget : b.squares.get? idx = some s) :
    ∃ t, b'.squares.get? idx = some t ∧ SqFrame s t :=
  forall₂_get? h.2.2.2.2 idx hget

theorem countP_setAt_succ {l : List Square} {i : Nat} {s : Square}
    (p : Square → Bool) (f : Square → Square) (hget : l.get? i = some s)
    (hp : p s = true) (hpf : p (f s) = false) :
    (setAt l i f).countP p + 1 = l.countP p := by
  induction l generalizing i with
  | nil => simp at hget
  | cons a t ih =>
    cases i with
    | zero =>
      simp only [List.get?_cons_zero, Option.some.injEq] at hget
      subst hget
      simp [setAt, List.countP_cons, hp, hpf]
    | succ n =>
      simp only [List.get?_cons_succ] at hget
      simp only [setAt, List.countP_cons]
      have := ih hget
      omega

theorem countUnrevealed_setRevealed {b : GameBoard} {idx : Nat} {s : Square}
    (hget : b.squares.get? idx = some s) (hrev : s.is_revealed = false) :
    countUnrevealed (setRevealed b idx) + 1 = countUnrevealed b :=
  countP_setAt_succ _ _ hget (by simp [hrev]) (by simp)

/-! ### Fuel sufficiency of the reveal/cascade recursion -/

/-- A fueled operation run from `b` succeeds (fuel does not run out), only
reveals squares, and does not increase the number of unrevealed squares. -/
def Good (b : GameBoard) (ob : Option (GameBoard × Except Err PlayResult)) : Prop :=
  ∃ b' r, ob = some (b', r) ∧ BFrame b b' ∧ countUnrevealed b' ≤ countUnrevealed b

theorem good_same (b : GameBoard) (r : Except Err PlayResult) :
    Good b (some (b, r)) :=
  ⟨b, r, rfl, bFrame_refl b, le_rfl⟩

theorem good_setRevealed (b : GameBoard) (idx : Nat) (r : Except Err PlayResult) :
    Good b (some (setRevealed b idx, r)) :=
  ⟨setRevealed b idx, r, rfl, BFrame_setRevealed b idx,
    (BFrame_setRevealed b idx).countUnrevealed_le⟩

/-- The neighbor sweep succeeds and respects the frame whenever the supplied
reveal function does so below the stated budget. -/
theorem neighborsWith_good {c : Nat}
    {f : GameBoard → Nat → Nat → Option (GameBoard × Except Err PlayResult)}
    (H : ∀ b x y, countUnrevealed b < c → Good b (f b x y))
    (ds : List (Int × Int)) (x y : Nat) (b : GameBoard)
    (hc : countUnrevealed b < c) :
    ∃ b' rs, neighborsWith f x y b ds = some (b', rs) ∧ BFrame b b' ∧
      countUnrevealed b' ≤ countUnrevealed b ∧ rs.length = ds.length := by
  induction ds generalizing b with
  | nil => exact ⟨b, [], rfl, bFrame_refl b, le_rfl, rfl⟩
  | cons d ds ih =>
    have hstep : ∃ b1 r1, revealProtWith f b ((x : Int) + d.1) ((y : Int) + d.2) =
        some (b1, r1) ∧ BFrame b b1 ∧ countUnrevealed b1 ≤ countUnrevealed b := by
      unfold revealProtWith
      split
      · exact ⟨b, .NoChange, rfl, bFrame_refl b, le_rfl⟩
      · split
        · exact ⟨b, .NoChange, rfl, bFrame_refl b, le_rfl⟩
        · obtain ⟨b1, r1, heq, hfr, hle⟩ := H b _ _ hc
          rw [heq]
          cases r1 with
          | ok r => exact ⟨b1, r, rfl, hfr, hle⟩
          | error e => exact ⟨b1, .NoChange, rfl, hfr, hle⟩
    obtain ⟨b1, r1, heq1, hfr1, hle1⟩ := hstep
    obtain ⟨b2, rs, heq2, hfr2, hle2, hlen⟩ := ih b1 (lt_of_le_of_lt hle1 hc)
    refine ⟨b2, r1 :: rs, ?_, bFrame_trans hfr1 hfr2, le_trans hle2 hle1, by simp [hlen]⟩
    simp only [neighborsWith, heq1, heq2]

/-- `cascade_from` succeeds and respects the frame whenever the inner reveal
function is within budget after the origin square is marked revealed. -/
theorem cascadeWith_good {c : Nat}
    {f : GameBoard → Nat → Nat → Option (GameBoard × Except Err PlayResult)}
    (H : ∀ b x y, countUnrevealed b < c → Good b (f b x y))
    (b : GameBoard) (x y : Nat)
    (hc : countUnrevealed (setRevealed b (b.xy_to_idx x y)) < c) :
    Good b (cascadeWith f b x y) := by
  unfold cascadeWith
  split
  · exact good_same b _
  · dsimp only
    split
    · exact good_same b _
    · obtain ⟨b', rs, heq, hfr, hle, -⟩ :=
        neighborsWith_good H offsets x y (setRevealed b (b.xy_to_idx x y)) hc
      rw [heq]
      exact ⟨b', .ok (.CascadedReveal rs), rfl,
        bFrame_trans (BFrame_setRevealed b _) hfr,
        le_trans hle (BFrame_setRevealed b _).countUnrevealed_le⟩

/-- Fuel sufficiency: with more fuel than unrevealed squares, `revealF`
cannot run out of fuel, and it only reveals squares. -/
theorem revealF_good : ∀ c b x y, countUnrevealed b < c → Good b (revealF c b x y) := by
  intro c
  induction c with
  | zero => intro b x y hc; omega
  | succ c ih =>
    intro b x y hc
    show Good b (revealGen (cascadeWith (revealF c)) b x y)
    unfold revealGen
    split
    · exact good_same b _
    · dsimp only
      rcases hget : b.get_square_by_idx (b.xy_to_idx x y) with e | sqr
      · exact good_same b _
      · show Good b (if (sqr.is_mine && !sqr.is_flagged) = true then _ else _)
        by_cases h1 : (sqr.is_mine && !sqr.is_flagged) = true
        · rw [if_pos h1]
          exact good_setRevealed b _ _
        · rw [if_neg h1]
          by_cases h2 : (!sqr.is_mine && !sqr.is_flagged && !sqr.is_revealed) = true
          · rw [if_pos h2]
            by_cases h3 : sqr.numeral = 0
            · rw [if_pos h3]
              have hs : b.squares.get? (b.xy_to_idx x y) = some sqr := by
                unfold GameBoard.get_square_by_idx at hget
                rcases h : b.squares.get? (b.xy_to_idx x y) with - | t
                · rw [h] at hget
                  exact absurd hget (by simp)
                · rw [h] at hget
                  simp only [Except.ok.injEq] at hget
                  rw [hget]
              have hrev : sqr.is_revealed = false := by
                simp only [Bool.and_eq_true, Bool.not_eq_true'] at h2
                exact h2.2
              have hdec := countUnrevealed_setRevealed hs hrev
              exact cascadeWith_good ih b x y (by omega)
            · rw [if_neg h3]
              exact good_setRevealed b _ _
          · rw [if_neg h2]
            exact good_same b _

/-! ### Claim C8: excessive mines -/

/-- C8: for every board and every `n > W×H`, `populate_mines_around(n, kc)`
fails with `ExcessiveMines` and returns the board entirely unchanged — no
mine placed, `num_mines` not set, `is_populated` still false. -/
theorem claim8_excessive_mines (b : GameBoard) (n : Nat) (kc : Option Coordinate)
    (rands : List Nat) (h : n > b.width * b.height) :
    populate_mines_around b n kc rands = some (b, .error .ExcessiveMines) := by
  unfold populate_mines_around
  rw [if_pos h]

theorem claim8_excessive_mines_witness :
    populate_mines_around (GameBoard.new 2 2) 5 none [0, 1] =
      some (GameBoard.new 2 2, .error .ExcessiveMines) :=
  claim8_excessive_mines (GameBoard.new 2 2) 5 none [0, 1] (by decide)

/-! ### Claim C10: flag_all_mines frame -/

/-- C10: `flag_all_mines()` sets every square's `is_flagged` to exactly its
mine state, clearing stray flags on non-mine squares, and leaves every other
square field and every board field unchanged. -/
theorem claim10_flag_all_mines (b : GameBoard) :
    (GameBoard.flag_all_mines b).width = b.width ∧
    (GameBoard.flag_all_mines b).height = b.height ∧
    (GameBoard.flag_all_mines b).num_mines = b.num_mines ∧
    (GameBoard.flag_all_mines b).is_populated = b.is_populated ∧
    (GameBoard.flag_all_mines b).squares.length = b.squares.length ∧
    ∀ i s, b.squares.get? i = some s →
      (GameBoard.flag_all_mines b).squares.get? i =
        some { is_revealed := s.is_revealed, is_flagged := s.is_mine,
               square_type := s.square_type, numeral := s.numeral } := by
  refine ⟨rfl, rfl, rfl, rfl, by simp [GameBoard.flag_all_mines], ?_⟩
  intro i s hs
  rw [List.get?_eq_getElem?] at hs ⊢
  simp [GameBoard.flag_all_mines, List.getElem?_map, hs]

/-! ### Claim C1: numerals after populate_numerals -/

/-- Pure value of `mined_neighbor_count` on an in-range square. -/
def mined9 (b : GameBoard) (x y : Nat) : Nat :=
  (offsets.map fun d =>
    if b.is_mine_protected ((x : Int) + d.1) ((y : Int) + d.2) then 1 else 0).sum

theorem mined_neighbor_count_ok (b : GameBoard) (x y : Nat)
    (hx : x < b.width) (hy : y < b.height) :
    b.mined_neighbor_count x y = .ok (mined9 b x y) := by
  unfold GameBoard.mined_neighbor_count
  rw [if_neg (by omega)]
  rfl

/-- Square relation allowing only the numeral to change. -/
def NumFrame (s t : Square) : Prop :=
  t.is_revealed = s.is_revealed ∧ t.is_flagged = s.is_flagged ∧
    t.square_type = s.square_type

theorem numFrame_refl (s : Square) : NumFrame s s := ⟨rfl, rfl, rfl⟩

/-- Boards agreeing on dimensions and on every square field but the numeral. -/
def SameLayout (b b' : GameBoard) : Prop :=
  b'.width = b.width ∧ b'.height = b.height ∧
    List.Forall₂ NumFrame b.squares b'.squares

theorem sameLayout_refl (b : GameBoard) : SameLayout b b :=
  ⟨rfl, rfl, forall₂_refl_of numFrame_refl b.squares⟩

theorem sameLayout_trans {a b c : GameBoard} (h1 : SameLayout a b)
    (h2 : SameLayout b c) : SameLayout a c :=
  ⟨h2.1.trans h1.1, h2.2.1.trans h1.2.1,
    forall₂_trans_of
      (fun _ _ _ hab hbc =>
        ⟨hbc.1.trans hab.1, hbc.2.1.trans hab.2.1, hbc.2.2.trans hab.2.2⟩)
      h1.2.2 h2.2.2⟩

theorem forall₂_get?_none {R : Square → Square → Prop} {l m : List Square}
    (h : List.Forall₂ R l m) {i : Nat} (hn : l.get? i = none) :
    m.get? i = none := by
  rw [List.get?_eq_none] at hn ⊢
  rw [← h.length_eq]
  exact hn

theorem is_mine_protected_congr {b b' : GameBoard} (h : SameLayout b b')
    (x y : Int) : b'.is_mine_protected x y = b.is_mine_protected x y := by
  unfold GameBoard.is_mine_protected
  by_cases hx : x < 0
  · simp [hx]
  · by_cases hy : y < 0
    · simp [hx, hy]
    · simp only [if_neg hx, if_neg hy]
      unfold GameBoard.get_square GameBoard.get_square_by_idx GameBoard.xy_to_idx
      rw [h.1, h.2.1]
      by_cases hr : x.toNat ≥ b.width ∨ y.toNat ≥ b.height
      · simp [hr]
      · simp only [if_neg hr]
        rcases hg : b.squares.get? (y.toNat * b.width + x.toNat) with - | s
        · rw [forall₂_get?_none h.2.2 hg]
        · obtain ⟨t, ht, hframe⟩ := forall₂_get? h.2.2 _ hg
          rw [ht]
          simp [Square.is_mine, hframe.2.2]

theorem mined9_congr {b b' : GameBoard} (h : SameLayout b b') (x y : Nat) :
    mined9 b' x y = mined9 b x y := by
  unfold mined9
  simp only [is_mine_protected_congr h]

theorem sameLayout_numeralStep (b : GameBoard) (c : Nat × Nat) :
    SameLayout b (GameBoard.numeralStep b c) :=
  ⟨rfl, rfl, forall₂_setAt numFrame_refl _ _ _ (fun _ => ⟨rfl, rfl, rfl⟩)⟩

theorem sameLayout_fold (cells : List (Nat × Nat)) (b : GameBoard) :
    SameLayout b (cells.foldl GameBoard.numeralStep b) := by
  induction cells generalizing b with
  | nil => exact sameLayout_refl b
  | cons c rest ih =>
    exact sameLayout_trans (sameLayout_numeralStep b c) (ih (GameBoard.numeralStep b c))

theorem idx_inj {w x1 y1 x2 y2 : Nat} (h1 : x1 < w) (h2 : x2 < w)
    (he : y1 * w + x1 = y2 * w + x2) : x1 = x2 ∧ y1 = y2 := by
  have hw : 0 < w := by omega
  have hx1 : (y1 * w + x1) % w = x1 := by
    rw [Nat.mul_comm y1 w, Nat.mul_add_mod, Nat.mod_eq_of_lt h1]
  have hx2 : (y2 * w + x2) % w = x2 := by
    rw [Nat.mul_comm y2 w, Nat.mul_add_mod, Nat.mod_eq_of_lt h2]
  have hxe : x1 = x2 := by rw [← hx1, ← hx2, he]
  refine ⟨hxe, ?_⟩
  subst hxe
  exact Nat.eq_of_mul_eq_mul_right hw (by omega : y1 * w = y2 * w)

theorem idx_lt {w h x y : Nat} (hx : x < w) (hy : y < h) : y * w + x < w * h :=
  calc y * w + x < (y + 1) * w := by rw [Nat.succ_mul]; omega
  _ ≤ h * w := Nat.mul_le_mul_right w hy
  _ = w * h := Nat.mul_comm h w

/-- The value `populate_numerals` writes into cell `c` of board `bb`. -/
theorem numeralStep_get?_self (bb : GameBoard) (c : Nat × Nat)
    (hcx : c.1 < bb.width) (hcy : c.2 < bb.height) :
    (GameBoard.numeralStep bb c).squares.get? (c.2 * bb.width + c.1) =
      (bb.squares.get? (c.2 * bb.width + c.1)).map
        (fun s => { s with numeral := mined9 bb c.1 c.2 }) := by
  unfold GameBoard.numeralStep
  simp only [GameBoard.xy_to_idx, mined_neighbor_count_ok bb c.1 c.2 hcx hcy]
  exact setAt_get?_self _ _ _

theorem numeralStep_get?_ne (bb : GameBoard) (c : Nat × Nat) (idx : Nat)
    (h : idx ≠ c.2 * bb.width + c.1) :
    (GameBoard.numeralStep bb c).squares.get? idx = bb.squares.get? idx := by
  unfold GameBoard.numeralStep
  simp only [GameBoard.xy_to_idx]
  exact setAt_get?_ne _ _ _ _ h

theorem fold_numeral_keep (bRef : GameBoard) (x y : Nat) (hx : x < bRef.width)
    (cells : List (Nat × Nat))
    (hIn : ∀ c ∈ cells, c.1 < bRef.width ∧ c.2 < bRef.height) :
    ∀ bb u, SameLayout bRef bb →
      bb.squares.get? (y * bRef.width + x) = some u →
      u.numeral = mined9 bRef x y →
      ∃ u', (cells.foldl GameBoard.numeralStep bb).squares.get?
          (y * bRef.width + x) = some u' ∧ u'.numeral = mined9 bRef x y := by
  induction cells with
  | nil => exact fun bb u _ hu hn => ⟨u, hu, hn⟩
  | cons c rest ih =>
    intro bb u hL hu hn
    have hc := hIn c (List.mem_cons_self c rest)
    have hrest : ∀ c' ∈ rest, c'.1 < bRef.width ∧ c'.2 < bRef.height :=
      fun c' hc' => hIn c' (List.mem_cons_of_mem c hc')
    have hL' : SameLayout bRef (GameBoard.numeralStep bb c) :=
      sameLayout_trans hL (sameLayout_numeralStep bb c)
    have hwidth : bb.width = bRef.width := hL.1
    by_cases hidx : y * bRef.width + x = c.2 * bb.width + c.1
    · -- the step rewrites our cell; by injectivity it is the same cell,
      -- and it writes the same (layout-determined) numeral again
      have hidx' := hidx.symm
      rw [hwidth] at hidx'
      obtain ⟨hxe, hye⟩ := idx_inj hc.1 hx hidx'
      have hcx : c.1 < bb.width := by rw [hwidth]; exact hc.1
      have hcy : c.2 < bb.height := by rw [hL.2.1]; exact hc.2
      have hget := numeralStep_get?_self bb c hcx hcy
      rw [← hidx, hu] at hget
      simp only [Option.map_some'] at hget
      refine ih hrest (GameBoard.numeralStep bb c) _ hL' hget ?_
      show mined9 bb c.1 c.2 = mined9 bRef x y
      rw [hxe, hye, mined9_congr hL]
    · have hget := numeralStep_get?_ne bb c (y * bRef.width + x) hidx
      rw [hu] at hget
      exact ih hrest (GameBoard.numeralStep bb c) u hL' hget hn

theorem fold_numeral_mem (bRef : GameBoard) (x y : Nat) (hx : x < bRef.width)
    (hy : y < bRef.height) (cells : List (Nat × Nat))
    (hIn : ∀ c ∈ cells, c.1 < bRef.width ∧ c.2 < bRef.height) :
    ∀ bb, SameLayout bRef bb → (x, y) ∈ cells →
      (y * bRef.width + x) < bb.squares.length →
      ∃ u', (cells.foldl GameBoard.numeralStep bb).squares.get?
          (y * bRef.width + x) = some u' ∧ u'.numeral = mined9 bRef x y := by
  induction cells with
  | nil => intro bb _ hmem _; simp at hmem
  | cons c rest ih =>
    intro bb hL hmem hlen
    have hrest : ∀ c' ∈ rest, c'.1 < bRef.width ∧ c'.2 < bRef.height :=
      fun c' hc' => hIn c' (List.mem_cons_of_mem c hc')
    have hL' : SameLayout bRef (GameBoard.numeralStep bb c) :=
      sameLayout_trans hL (sameLayout_numeralStep bb c)
    have hwidth : bb.width = bRef.width := hL.1
    rcases List.mem_cons.mp hmem with heq | hmem'
    · -- this step writes our cell's numeral
      subst heq
      have hcx : x < bb.width := by rw [hwidth]; exact hx
      have hcy : y < bb.height := by rw [hL.2.1]; exact hy
      have hget := numeralStep_get?_self bb (x, y) hcx hcy
      dsimp only at hget
      rw [hwidth] at hget
      obtain ⟨u0, hu0⟩ : ∃ u0, bb.squares.get? (y * bRef.width + x) = some u0 :=
        ⟨_, List.get?_eq_get hlen⟩
      rw [hu0] at hget
      simp only [Option.map_some'] at hget
      refine fold_numeral_keep bRef x y hx rest hrest (GameBoard.numeralStep bb (x, y))
        _ hL' hget ?_
      show mined9 bb x y = mined9 bRef x y
      exact mined9_congr hL x y
    · have hlen' : (y * bRef.width + x) < (GameBoard.numeralStep bb c).squares.length := by
        unfold GameBoard.numeralStep
        simpa [setAt_length] using hlen
      exact ih hrest (GameBoard.numeralStep bb c) hL' hmem' hlen'

theorem mem_cellList {w h x y : Nat} : (x, y) ∈ cellList w h ↔ x < w ∧ y < h := by
  constructor
  · intro hmem
    simp only [cellList, List.mem_flatten, List.mem_map] at hmem
    obtain ⟨l, ⟨a, ha, rfl⟩, hmem⟩ := hmem
    obtain ⟨bv, hb, heq⟩ := List.mem_map.mp hmem
    obtain ⟨rfl, rfl⟩ := Prod.mk.injEq .. ▸ heq
    exact ⟨List.mem_range.mp ha, List.mem_range.mp hb⟩
  · rintro ⟨hx, hy⟩
    simp only [cellList, List.mem_flatten, List.mem_map]
    exact ⟨(List.range h).map fun y => (x, y), ⟨x, List.mem_range.mpr hx, rfl⟩,
      List.mem_map.mpr ⟨y, List.mem_range.mpr hy, rfl⟩⟩

theorem mined9_split (b : GameBoard) (x y : Nat) :
    mined9 b x y = spec_neighbor_mine_count b x y +
      (if b.is_mine_protected x y then 1 else 0) := by
  unfold mined9 spec_neighbor_mine_count offsets properOffsets
  simp only [List.map_cons, List.map_nil, List.sum_cons, List.sum_nil,
    add_zero, Int.add_zero]
  omega

theorem is_mine_protected_in_range (b : GameBoard) (x y : Nat)
    (hx : x < b.width) (hy : y < b.height)
    (hlen : b.squares.length = b.width * b.height) :
    b.is_mine_protected x y = (squareAt b x y).is_mine := by
  unfold GameBoard.is_mine_protected squareAt
  rw [if_neg (by omega), if_neg (by omega)]
  unfold GameBoard.get_square GameBoard.get_square_by_idx GameBoard.xy_to_idx
  rw [if_neg (by simp; omega)]
  have hlt : y * b.width + x < b.squares.length := by
    rw [hlen]; exact idx_lt hx hy
  obtain ⟨u, hu⟩ : ∃ u, b.squares.get? (y * b.width + x) = some u :=
    ⟨b.squares.get ⟨_, hlt⟩, List.get?_eq_get hlt⟩
  simp [hu, List.getD_eq_getElem?_getD, ← List.get?_eq_getElem?]

/-- C1 (amended): after `populate_numerals()`, every in-range cell's numeral
equals the count of mines in the full 3×3 block centred on the cell — the
spec's 8-neighbor count plus one exactly when the cell itself is a mine,
because the source's offset loop includes the (0,0) self-offset. -/
theorem claim1_numerals_amended (b : GameBoard)
    (hlen : b.squares.length = b.width * b.height)
    (x y : Nat) (hx : x < b.width) (hy : y < b.height) :
    (squareAt (GameBoard.populate_numerals b) x y).numeral =
      spec_neighbor_mine_count b x y +
        (if (squareAt b x y).is_mine then 1 else 0) := by
  have hmem : (x, y) ∈ cellList b.width b.height := mem_cellList.mpr ⟨hx, hy⟩
  have hIn : ∀ c ∈ cellList b.width b.height, c.1 < b.width ∧ c.2 < b.height := by
    rintro ⟨cx, cy⟩ hc
    exact mem_cellList.mp hc
  have hlt : y * b.width + x < b.squares.length := by
    rw [hlen]; exact idx_lt hx hy
  obtain ⟨u', hget, hnum⟩ := fold_numeral_mem b x y hx hy
    (cellList b.width b.height) hIn b (sameLayout_refl b) hmem hlt
  have hW : (GameBoard.populate_numerals b).width = b.width :=
    (sameLayout_fold (cellList b.width b.height) b).1
  unfold squareAt GameBoard.xy_to_idx
  rw [hW]
  unfold GameBoard.populate_numerals
  rw [List.getD_eq_getElem?_getD, ← List.get?_eq_getElem?, hget]
  simp only [Option.getD_some]
  rw [hnum, mined9_split, is_mine_protected_in_range b x y hx hy hlen]
  rfl

/-- A 1×1 board whose only square is a mine. -/
def oneByOneMine : GameBoard :=
  { width := 1, height := 1, num_mines := 0,
    squares := [Square.default_mine], is_populated := false }

/-- C1 counterexample: on a 1×1 board holding a single mine, the claim
predicts numeral 0 (no in-grid neighbors at all), but `populate_numerals()`
stores 1 — the cell counts its own mine via the (0,0) offset. -/
theorem claim1_counterexample :
    (squareAt (GameBoard.populate_numerals oneByOneMine) 0 0).numeral = 1 ∧
    spec_neighbor_mine_count oneByOneMine 0 0 = 0 ∧ (1 : Nat) ≠ 0 :=
  ⟨rfl, rfl, by decide⟩

/-- A 3×3 board with a mine in its top-left corner. -/
def threeByThreeMine : GameBoard :=
  { width := 3, height := 3, num_mines := 0,
    squares := setAt (List.replicate 9 Square.default) 0 fun _ => Square.default_mine,
    is_populated := false }

theorem claim1_numerals_amended_witness :
    (squareAt (GameBoard.populate_numerals threeByThreeMine) 1 1).numeral =
      spec_neighbor_mine_count threeByThreeMine 1 1 +
        (if (squareAt threeByThreeMine 1 1).is_mine then 1 else 0) :=
  claim1_numerals_amended threeByThreeMine (by decide) 1 1 (by decide) (by decide)

/-! ### Claim C7: can_chord_square -/

/-- Pure value of `flagged_neighbor_count` on an in-range square. -/
def flagged9 (b : GameBoard) (x y : Nat) : Nat :=
  (offsets.map fun d =>
    if b.is_flagged_protected ((x : Int) + d.1) ((y : Int) + d.2) then 1 else 0).sum

theorem flagged_neighbor_count_ok (b : GameBoard) (x y : Nat)
    (hx : x < b.width) (hy : y < b.height) :
    b.flagged_neighbor_count x y = .ok (flagged9 b x y) := by
  unfold GameBoard.flagged_neighbor_count
  rw [if_neg (by omega)]
  rfl

theorem flagged9_split (b : GameBoard) (x y : Nat) :
    flagged9 b x y = spec_flagged_neighbor_count b x y +
      (if b.is_flagged_protected x y then 1 else 0) := by
  unfold flagged9 spec_flagged_neighbor_count offsets properOffsets
  simp only [List.map_cons, List.map_nil, List.sum_cons, List.sum_nil,
    add_zero, Int.add_zero]
  omega

theorem is_flagged_protected_in_range (b : GameBoard) (x y : Nat)
    (hx : x < b.width) (hy : y < b.height)
    (hlen : b.squares.length = b.width * b.height) :
    b.is_flagged_protected x y = (squareAt b x y).is_flagged := by
  unfold GameBoard.is_flagged_protected squareAt
  rw [if_neg (by omega), if_neg (by omega)]
  unfold GameBoard.get_square GameBoard.get_square_by_idx GameBoard.xy_to_idx
  rw [if_neg (by simp; omega)]
  have hlt : y * b.width + x < b.squares.length := by
    rw [hlen]; exact idx_lt hx hy
  obtain ⟨u, hu⟩ : ∃ u, b.squares.get? (y * b.width + x) = some u :=
    ⟨b.squares.get ⟨_, hlt⟩, List.get?_eq_get hlt⟩
  simp [hu, List.getD_eq_getElem?_getD, ← List.get?_eq_getElem?]

theorem get_square_ok (b : GameBoard) (x y : Nat)
    (hx : x < b.width) (hy : y < b.height)
    (hlen : b.squares.length = b.width * b.height) :
    b.get_square x y = .ok (squareAt b x y) := by
  unfold squareAt GameBoard.get_square GameBoard.get_square_by_idx GameBoard.xy_to_idx
  rw [if_neg (by omega)]
  have hlt : y * b.width + x < b.squares.length := by
    rw [hlen]; exact idx_lt hx hy
  obtain ⟨u, hu⟩ : ∃ u, b.squares.get? (y * b.width + x) = some u :=
    ⟨b.squares.get ⟨_, hlt⟩, List.get?_eq_get hlt⟩
  simp [hu, List.getD_eq_getElem?_getD, ← List.get?_eq_getElem?]

/-- C7 (amended): `can_chord_square(x, y)` returns true iff the square's
numeral is 0 or equals the flagged count of the full 3×3 block centred on
the square — the spec's flagged-neighbor count plus one when the square
itself is flagged, because the source's offset loop includes (0,0); and
whenever the numeral is nonzero and that flagged count exceeds it, the call
returns false. -/
theorem claim7_can_chord_amended (b : GameBoard)
    (hlen : b.squares.length = b.width * b.height)
    (x y : Nat) (hx : x < b.width) (hy : y < b.height) :
    (b.can_chord_square x y = .ok true ↔
      ((squareAt b x y).numeral = 0 ∨
        (squareAt b x y).numeral = spec_flagged_neighbor_count b x y +
          (if (squareAt b x y).is_flagged then 1 else 0))) ∧
    ((squareAt b x y).numeral ≠ 0 →
      spec_flagged_neighbor_count b x y +
          (if (squareAt b x y).is_flagged then 1 else 0) >
        (squareAt b x y).numeral →
      b.can_chord_square x y = .ok false) := by
  have hfl : flagged9 b x y = spec_flagged_neighbor_count b x y +
      (if (squareAt b x y).is_flagged then 1 else 0) := by
    rw [flagged9_split, is_flagged_protected_in_range b x y hx hy hlen]
  have hcc : b.can_chord_square x y =
      (if (squareAt b x y).numeral = 0 ∨ (squareAt b x y).numeral = flagged9 b x y
        then .ok true else .ok false) := by
    unfold GameBoard.can_chord_square
    rw [if_neg (by omega), get_square_ok b x y hx hy hlen,
      flagged_neighbor_count_ok b x y hx hy]
  constructor
  · rw [hcc]
    by_cases hcond : (squareAt b x y).numeral = 0 ∨
        (squareAt b x y).numeral = flagged9 b x y
    · rw [if_pos hcond]
      exact ⟨fun _ => by rw [← hfl]; exact hcond, fun _ => rfl⟩
    · rw [if_neg hcond]
      constructor
      · intro h
        exact absurd h (by simp)
      · intro h
        exact absurd (by rw [hfl]; exact h) hcond
  · intro hnz hgt
    rw [hcc, if_neg]
    rintro (h0 | he)
    · exact hnz h0
    · rw [hfl] at he; omega

/-- The 3×3 one-mine board with numerals computed and the centre square
itself flagged (no neighbor flagged). -/
def chordSelfFlagBoard : GameBoard :=
  (GameBoard.flag (GameBoard.populate_numerals threeByThreeMine) 1 1).1

/-- C7 counterexample: the centre square has numeral 1 and zero flagged
neighbors in the spec's sense, so the claim predicts `can_chord_square`
false — but the code counts the square's own flag via the (0,0) offset and
returns true. -/
theorem claim7_counterexample :
    GameBoard.can_chord_square chordSelfFlagBoard 1 1 = .ok true ∧
    (squareAt chordSelfFlagBoard 1 1).numeral = 1 ∧
    spec_flagged_neighbor_count chordSelfFlagBoard 1 1 = 0 :=
  ⟨rfl, rfl, rfl⟩

theorem claim7_can_chord_amended_witness :
    (GameBoard.can_chord_square (GameBoard.populate_numerals threeByThreeMine) 1 1 = .ok true ↔
      ((squareAt (GameBoard.populate_numerals threeByThreeMine) 1 1).numeral = 0 ∨
        (squareAt (GameBoard.populate_numerals threeByThreeMine) 1 1).numeral =
          spec_flagged_neighbor_count (GameBoard.populate_numerals threeByThreeMine) 1 1 +
            (if (squareAt (GameBoard.populate_numerals threeByThreeMine) 1 1).is_flagged
              then 1 else 0))) ∧
    ((squareAt (GameBoard.populate_numerals threeByThreeMine) 1 1).numeral ≠ 0 →
      spec_flagged_neighbor_count (GameBoard.populate_numerals threeByThreeMine) 1 1 +
          (if (squareAt (GameBoard.populate_numerals threeByThreeMine) 1 1).is_flagged
            then 1 else 0) >
        (squareAt (GameBoard.populate_numerals threeByThreeMine) 1 1).numeral →
      GameBoard.can_chord_square (GameBoard.populate_numerals threeByThreeMine) 1 1 =
        .ok false) :=
  claim7_can_chord_amended (GameBoard.populate_numerals threeByThreeMine)
    (by decide) 1 1 (by decide) (by decide)

/-! ### Claim C3: termination of reveal / cascade_from -/

theorem revealF_succ (c : Nat) :
    revealF (c + 1) = revealGen (cascadeWith (revealF c)) := rfl

/-- C3: for every in-range coordinate, `reveal` — and `cascade_from` — run
to completion: the canonical fuel (one more than the number of unrevealed
squares) is never exhausted, because every nested cascade first marks a
previously unrevealed square revealed, squares only ever move from
unrevealed to revealed (`BFrame`), and an already-revealed square is never
cascaded again. -/
theorem claim3_reveal_terminates (b : GameBoard) (x y : Nat)
    (hx : x < b.width) (hy : y < b.height) :
    (∃ b' r, reveal b x y = some (b', r) ∧ BFrame b b' ∧
      countUnrevealed b' ≤ countUnrevealed b) ∧
    (∃ b' r, cascade_from b x y = some (b', r) ∧ BFrame b b' ∧
      countUnrevealed b' ≤ countUnrevealed b) := by
  constructor
  · exact revealF_good (countUnrevealed b + 1) b x y (by omega)
  · refine cascadeWith_good (fun bb xx yy hbb => revealF_good _ bb xx yy hbb) b x y ?_
    have := (BFrame_setRevealed b (b.xy_to_idx x y)).countUnrevealed_le
    omega

theorem claim3_reveal_terminates_witness :
    (∃ b' r, reveal (GameBoard.new 2 2) 0 0 = some (b', r) ∧
      BFrame (GameBoard.new 2 2) b' ∧
      countUnrevealed b' ≤ countUnrevealed (GameBoard.new 2 2)) ∧
    (∃ b' r, cascade_from (GameBoard.new 2 2) 0 0 = some (b', r) ∧
      BFrame (GameBoard.new 2 2) b' ∧
      countUnrevealed b' ≤ countUnrevealed (GameBoard.new 2 2)) :=
  claim3_reveal_terminates (GameBoard.new 2 2) 0 0 (by decide) (by decide)

/-! ### Claim C2: reveal idempotence -/

theorem is_mine_mk (r f : Bool) (n : Nat) (s : Square) :
    (Square.mk r f s.square_type n).is_mine = s.is_mine := rfl

theorem getD_of_get? {l : List Square} {i : Nat} {s : Square}
    (h : l.get? i = some s) : l.getD i Square.default = s := by
  rw [List.getD_eq_getElem?_getD, ← List.get?_eq_getElem?, h]
  rfl

theorem setAt_idem (l : List Square) (i : Nat) (f : Square → Square)
    (hf : ∀ s, f (f s) = f s) : setAt (setAt l i f) i f = setAt l i f := by
  induction l generalizing i with
  | nil => rfl
  | cons s t ih =>
    cases i with
    | zero => simp [setAt, hf]
    | succ n => simp [setAt, ih]

theorem setRevealed_idem (b : GameBoard) (idx : Nat) :
    setRevealed (setRevealed b idx) idx = setRevealed b idx := by
  unfold setRevealed
  congr 1
  exact setAt_idem b.squares idx _ (fun s => rfl)

theorem setRevealed_get? (b : GameBoard) (idx : Nat) {s : Square}
    (hs : b.squares.get? idx = some s) :
    (setRevealed b idx).squares.get? idx = some { s with is_revealed := true } := by
  show (setAt b.squares idx _).get? idx = _
  rw [setAt_get?_self, hs]
  rfl

theorem get_square_by_idx_of_get? (b : GameBoard) (idx : Nat) {s : Square}
    (hs : b.squares.get? idx = some s) : b.get_square_by_idx idx = .ok s := by
  unfold GameBoard.get_square_by_idx
  rw [hs]

/-- C2 (amended): for an in-range square, two consecutive `reveal` calls
behave as follows.  On an unrevealed, unflagged, non-mine square the first
call yields `Revealed` or a cascade and the second `NoChange`.  On an
unflagged mine *every* call yields `Explosion` (the mine branch never checks
`is_revealed`), so the second call is not `NoChange`.  On a flagged or
already-revealed square both calls yield `NoChange`. -/
theorem claim2_reveal_amended (b : GameBoard) (x y : Nat)
    (hx : x < b.width) (hy : y < b.height) (s : Square)
    (hs : b.squares.get? (b.xy_to_idx x y) = some s) :
    (s.is_mine = false → s.is_flagged = false → s.is_revealed = false →
      ∃ b' r, reveal b x y = some (b', r) ∧
        ((∃ c, r = .ok (.Revealed c)) ∨ (∃ rs, r = .ok (.CascadedReveal rs))) ∧
        reveal b' x y = some (b', .ok .NoChange)) ∧
    (s.is_mine = true → s.is_flagged = false →
      reveal b x y = some (setRevealed b (b.xy_to_idx x y), .ok (.Explosion ⟨x, y⟩)) ∧
      reveal (setRevealed b (b.xy_to_idx x y)) x y =
        some (setRevealed b (b.xy_to_idx x y), .ok (.Explosion ⟨x, y⟩))) ∧
    (s.is_flagged = true → reveal b x y = some (b, .ok .NoChange)) ∧
    (s.is_mine = false → s.is_revealed = true →
      reveal b x y = some (b, .ok .NoChange)) := by
  have hrange : ¬(x ≥ b.width ∨ y ≥ b.height) := by omega
  refine ⟨?_, ?_, ?_, ?_⟩
  · -- fresh unflagged non-mine square
    intro hm hf hr
    have hfirst : reveal b x y =
        (if s.numeral = 0 then cascadeWith (revealF (countUnrevealed b)) b x y
         else some (setRevealed b (b.xy_to_idx x y), .ok (.Revealed ⟨x, y⟩))) := by
      show revealF (countUnrevealed b + 1) b x y = _
      rw [revealF_succ]
      unfold revealGen
      rw [if_neg hrange]
      dsimp only
      rw [get_square_by_idx_of_get? b _ hs]
      simp [hm, hf, hr]
    by_cases hnum : s.numeral = 0
    · -- cascade case
      rw [if_pos hnum] at hfirst
      have hb1 := countUnrevealed_setRevealed hs hr
      have H : ∀ bb xx yy, countUnrevealed bb < countUnrevealed b →
          Good bb (revealF (countUnrevealed b) bb xx yy) :=
        fun bb xx yy hbb => revealF_good (countUnrevealed b) bb xx yy hbb
      obtain ⟨b2, rs, heq, hfr, hle, -⟩ :=
        neighborsWith_good H offsets x y (setRevealed b (b.xy_to_idx x y)) (by omega)
      have hcasc : cascadeWith (revealF (countUnrevealed b)) b x y =
          some (b2, .ok (.CascadedReveal rs)) := by
        unfold cascadeWith
        rw [if_neg hrange]
        dsimp only
        rw [getD_of_get? hs]
        rw [if_neg (by simp [Square.is_mine] at hm ⊢; simp [hm, hf, hnum])]
        rw [heq]
      refine ⟨b2, .ok (.CascadedReveal rs), by rw [hfirst, hcasc], .inr ⟨rs, rfl⟩, ?_⟩
      -- second call: the square is now revealed, not a mine, not flagged
      obtain ⟨t, ht, htf⟩ := hfr.get? (setRevealed_get? b _ hs)
      have hW : b2.width = b.width := hfr.1.trans rfl
      have hH : b2.height = b.height := hfr.2.1.trans rfl
      show revealF (countUnrevealed b2 + 1) b2 x y = _
      rw [revealF_succ]
      unfold revealGen
      rw [if_neg (by omega)]
      dsimp only
      have hidx2 : b2.xy_to_idx x y = b.xy_to_idx x y := by
        unfold GameBoard.xy_to_idx; rw [hW]
      rw [hidx2, get_square_by_idx_of_get? b2 _ ht]
      have htm : t.is_mine = false := by
        have hty : t.square_type = s.square_type := htf.1
        simp only [Square.is_mine, hty]
        simpa only [Square.is_mine] using hm
      have htr : t.is_revealed = true := htf.2.2.2 rfl
      simp [htm, htr, htf.2.2.1]
    · -- plain single-square reveal
      rw [if_neg hnum] at hfirst
      refine ⟨setRevealed b (b.xy_to_idx x y), .ok (.Revealed ⟨x, y⟩), hfirst,
        .inl ⟨⟨x, y⟩, rfl⟩, ?_⟩
      show revealF (countUnrevealed (setRevealed b (b.xy_to_idx x y)) + 1) _ x y = _
      rw [revealF_succ]
      unfold revealGen
      rw [if_neg (show ¬(x ≥ (setRevealed b (b.xy_to_idx x y)).width ∨
        y ≥ (setRevealed b (b.xy_to_idx x y)).height) from hrange)]
      dsimp only
      rw [show (setRevealed b (b.xy_to_idx x y)).xy_to_idx x y = b.xy_to_idx x y from rfl]
      rw [get_square_by_idx_of_get? _ _ (setRevealed_get? b _ hs)]
      simp [hm, hf, is_mine_mk]
  · -- unflagged mine: Explosion every time
    intro hm hf
    constructor
    · show revealF (countUnrevealed b + 1) b x y = _
      rw [revealF_succ]
      unfold revealGen
      rw [if_neg hrange]
      dsimp only
      rw [get_square_by_idx_of_get? b _ hs]
      simp [hm, hf]
    · show revealF (countUnrevealed (setRevealed b (b.xy_to_idx x y)) + 1) _ x y = _
      rw [revealF_succ]
      unfold revealGen
      rw [if_neg (show ¬(x ≥ (setRevealed b (b.xy_to_idx x y)).width ∨
        y ≥ (setRevealed b (b.xy_to_idx x y)).height) from hrange)]
      dsimp only
      rw [show (setRevealed b (b.xy_to_idx x y)).xy_to_idx x y = b.xy_to_idx x y from rfl]
      rw [get_square_by_idx_of_get? _ _ (setRevealed_get? b _ hs)]
      simp [hm, hf, setRevealed_idem, is_mine_mk]
  · -- flagged square: NoChange
    intro hf
    show revealF (countUnrevealed b + 1) b x y = _
    rw [revealF_succ]
    unfold revealGen
    rw [if_neg hrange]
    dsimp only
    rw [get_square_by_idx_of_get? b _ hs]
    rcases hmv : s.is_mine <;> simp [hmv, hf]
  · -- already-revealed non-mine square: NoChange
    intro hm hr
    show revealF (countUnrevealed b + 1) b x y = _
    rw [revealF_succ]
    unfold revealGen
    rw [if_neg hrange]
    dsimp only
    rw [get_square_by_idx_of_get? b _ hs]
    simp [hm, hr]

/-- The 1×1 mine board after its mine was revealed. -/
def oneByOneMineRevealed : GameBoard := setRevealed oneByOneMine 0

/-- C2 counterexample: on a 1×1 board holding an unflagged mine, the first
`reveal` yields `Explosion` and the second yields `Explosion` again — not
`NoChange` as the claim states for unflagged mines. -/
theorem claim2_counterexample :
    reveal oneByOneMine 0 0 =
      some (oneByOneMineRevealed, .ok (.Explosion ⟨0, 0⟩)) ∧
    reveal oneByOneMineRevealed 0 0 =
      some (oneByOneMineRevealed, .ok (.Explosion ⟨0, 0⟩)) ∧
    PlayResult.Explosion ⟨0, 0⟩ ≠ .NoChange :=
  ⟨rfl, rfl, by simp⟩

theorem claim2_reveal_amended_witness :
    ((Square.default.is_mine = false → Square.default.is_flagged = false →
      Square.default.is_revealed = false →
      ∃ b' r, reveal (GameBoard.new 2 2) 0 0 = some (b', r) ∧
        ((∃ c, r = .ok (.Revealed c)) ∨ (∃ rs, r = .ok (.CascadedReveal rs))) ∧
        reveal b' 0 0 = some (b', .ok .NoChange)) ∧
    (Square.default.is_mine = true → Square.default.is_flagged = false →
      reveal (GameBoard.new 2 2) 0 0 =
        some (setRevealed (GameBoard.new 2 2) ((GameBoard.new 2 2).xy_to_idx 0 0),
          .ok (.Explosion ⟨0, 0⟩)) ∧
      reveal (setRevealed (GameBoard.new 2 2) ((GameBoard.new 2 2).xy_to_idx 0 0)) 0 0 =
        some (setRevealed (GameBoard.new 2 2) ((GameBoard.new 2 2).xy_to_idx 0 0),
          .ok (.Explosion ⟨0, 0⟩))) ∧
    (Square.default.is_flagged = true →
      reveal (GameBoard.new 2 2) 0 0 = some (GameBoard.new 2 2, .ok .NoChange)) ∧
    (Square.default.is_mine = false → Square.default.is_revealed = true →
      reveal (GameBoard.new 2 2) 0 0 = some (GameBoard.new 2 2, .ok .NoChange))) :=
  claim2_reveal_amended (GameBoard.new 2 2) 0 0 (by decide) (by decide)
    Square.default rfl

/-! ### Claim C4: successful mine placement -/

theorem countP_setAt_add {l : List Square} {i : Nat} {s : Square}
    (p : Square → Bool) (f : Square → Square) (hget : l.get? i = some s)
    (hp : p s = false) (hpf : p (f s) = true) :
    (setAt l i f).countP p = l.countP p + 1 := by
  induction l generalizing i with
  | nil => simp at hget
  | cons a t ih =>
    cases i with
    | zero =>
      simp only [List.get?_cons_zero, Option.some.injEq] at hget
      subst hget
      simp [setAt, List.countP_cons, hp, hpf]
    | succ n =>
      simp only [List.get?_cons_succ] at hget
      simp only [setAt, List.countP_cons]
      have := ih hget
      omega

theorem placeLoop_ok (kc : Option Coordinate) :
    ∀ rands b need b', placeLoop kc b need rands = some (b', .ok ()) →
      b'.width = b.width ∧ b'.height = b.height ∧ b'.num_mines = b.num_mines ∧
      b'.is_populated = b.is_populated ∧ b'.squares.length = b.squares.length ∧
      mineCount b' = mineCount b + need ∧
      (∀ c, kc = some c → c.x < b.width →
        (b'.squares.get? (c.y * b.width + c.x)).map Square.is_mine =
          (b.squares.get? (c.y * b.width + c.x)).map Square.is_mine) := by
  intro rands
  induction rands with
  | nil =>
    intro b need b' h
    cases need with
    | zero =>
      simp only [placeLoop, Option.some.injEq, Prod.mk.injEq] at h
      obtain ⟨rfl, -⟩ := h
      exact ⟨rfl, rfl, rfl, rfl, rfl, rfl, fun _ _ _ => rfl⟩
    | succ n => exact absurd h (by simp [placeLoop])
  | cons r rest ih =>
    intro b need b' h
    cases need with
    | zero =>
      simp only [placeLoop, Option.some.injEq, Prod.mk.injEq] at h
      obtain ⟨rfl, -⟩ := h
      exact ⟨rfl, rfl, rfl, rfl, rfl, rfl, fun _ _ _ => rfl⟩
    | succ n =>
      simp only [placeLoop] at h
      by_cases hlen : b.squares.length ≤ 1
      · rw [if_pos hlen] at h
        exact absurd h (by simp)
      · rw [if_neg hlen] at h
        have hpos : 0 < b.squares.length - 1 := by omega
        have hidx : r % (b.squares.length - 1) < b.squares.length := by
          have := Nat.mod_lt r hpos
          omega
        obtain ⟨s, hsget⟩ : ∃ s, b.squares.get? (r % (b.squares.length - 1)) = some s :=
          ⟨_, List.get?_eq_get hidx⟩
        rw [get_square_by_idx_of_get? b _ hsget] at h
        cases kc with
        | none =>
          dsimp only at h
          split at h
          · rename_i hnm
            have hmine : s.is_mine = false := by
              rcases hv : s.is_mine
              · rfl
              · exact absurd hv hnm
            obtain ⟨h1, h2, h3, h4, h5, h6, h7⟩ := ih _ n b' h
            refine ⟨h1, h2, h3, h4, ?_, ?_, fun c hc => nomatch hc⟩
            · rw [h5]
              exact setAt_length _ _ _
            · rw [h6]
              have hadd := countP_setAt_add (fun s => s.is_mine)
                (fun _ => Square.default_mine) hsget hmine rfl
              show (setAt b.squares (r % (b.squares.length - 1))
                    fun _ => Square.default_mine).countP (fun s => s.is_mine) + n =
                  b.squares.countP (fun s => s.is_mine) + (n + 1)
              omega
          · exact ih b (n + 1) b' h
        | some c =>
          have hxy : b.idx_to_xy (r % (b.squares.length - 1)) =
              .ok ⟨r % (b.squares.length - 1) % b.width,
                   r % (b.squares.length - 1) / b.width⟩ := by
            unfold GameBoard.idx_to_xy
            rw [if_neg (by omega)]
          rw [hxy] at h
          dsimp only at h
          split at h
          · rename_i hcond
            have hmine : s.is_mine = false := by
              rcases hv : s.is_mine
              · rfl
              · exact absurd hv hcond.1
            obtain ⟨h1, h2, h3, h4, h5, h6, h7⟩ := ih _ n b' h
            refine ⟨h1, h2, h3, h4, ?_, ?_, ?_⟩
            · rw [h5]
              exact setAt_length _ _ _
            · rw [h6]
              have hadd := countP_setAt_add (fun s => s.is_mine)
                (fun _ => Square.default_mine) hsget hmine rfl
              show (setAt b.squares (r % (b.squares.length - 1))
                    fun _ => Square.default_mine).countP (fun s => s.is_mine) + n =
                  b.squares.countP (fun s => s.is_mine) + (n + 1)
              omega
            · intro c' hc' hcx
              obtain rfl : c = c' := by
                simpa using hc'
              have hne : c.y * b.width + c.x ≠ r % (b.squares.length - 1) := by
                intro he
                apply hcond.2
                have hw : 0 < b.width := by omega
                have hmod : (c.y * b.width + c.x) % b.width = c.x := by
                  rw [Nat.mul_comm c.y b.width, Nat.mul_add_mod, Nat.mod_eq_of_lt hcx]
                have hdiv : (c.y * b.width + c.x) / b.width = c.y := by
                  rw [Nat.mul_comm c.y b.width, Nat.mul_add_div hw,
                    Nat.div_eq_of_lt hcx, Nat.add_zero]
                rw [← he, hmod, hdiv]
              have hkeep := setAt_get?_ne b.squares (r % (b.squares.length - 1))
                (c.y * b.width + c.x) (fun _ => Square.default_mine) hne
              have hchain := h7 c rfl hcx
              rw [hchain]
              show ((setAt b.squares _ _).get? (c.y * b.width + c.x)).map _ = _
              rw [hkeep]
          · exact ih b (n + 1) b' h

/-- C4: whenever `populate_mines_around(n, kc)` returns successfully on a
fresh (mine-free, well-formed) board with `n ≤ W×H`, exactly `n` squares
are mines, `num_mines` is `n`, `is_populated` is true, and the kept-clear
coordinate, when in range, holds no mine. -/
theorem claim4_populate_success (b : GameBoard) (n : Nat) (kc : Option Coordinate)
    (rands : List Nat) (b' : GameBoard)
    (hlen : b.squares.length = b.width * b.height)
    (hfresh : mineCount b = 0) (hn : n ≤ b.width * b.height)
    (hsucc : populate_mines_around b n kc rands = some (b', .ok ())) :
    mineCount b' = n ∧ b'.num_mines = n ∧ b'.is_populated = true ∧
    (∀ c, kc = some c → c.x < b.width → c.y < b.height →
      (b'.squares.get? (c.y * b.width + c.x)).map Square.is_mine = some false) := by
  unfold populate_mines_around at hsucc
  rw [if_neg (by omega)] at hsucc
  rcases hloop : placeLoop kc { b with num_mines := n } n rands with - | ⟨b2, res⟩
  · rw [hloop] at hsucc
    exact absurd hsucc (by simp)
  · rw [hloop] at hsucc
    cases res with
    | error e => exact absurd hsucc (by simp)
    | ok u =>
      cases u
      simp only [Option.some.injEq, Prod.mk.injEq] at hsucc
      obtain ⟨rfl, -⟩ := hsucc
      obtain ⟨h1, h2, h3, h4, h5, h6, h7⟩ := placeLoop_ok kc rands _ n b2 hloop
      refine ⟨?_, ?_, rfl, ?_⟩
      · show mineCount b2 = n
        rw [h6]
        have : mineCount { b with num_mines := n } = mineCount b := rfl
        omega
      · show b2.num_mines = n
        rw [h3]
      · intro c hc hcx hcy
        have hclt : c.y * b.width + c.x < b.squares.length := by
          rw [hlen]; exact idx_lt hcx hcy
        obtain ⟨u, hu⟩ : ∃ u, b.squares.get? (c.y * b.width + c.x) = some u :=
          ⟨_, List.get?_eq_get hclt⟩
        have hnm : u.is_mine = false := by
          have hz : b.squares.countP (fun s => s.is_mine) = 0 := hfresh
          rw [List.countP_eq_zero] at hz
          have := hz u (List.get?_mem hu)
          simpa using this
        have := h7 c hc hcx
        show (b2.squares.get? (c.y * b.width + c.x)).map Square.is_mine = some false
        rw [this]
        show ((b.squares.get? (c.y * b.width + c.x)).map Square.is_mine) = some false
        rw [hu]
        simp [hnm]

/-- The board produced by placing one mine on a fresh 2×2 board with draw 1
and keep-clear (0,0). -/
def c4Board : GameBoard :=
  { width := 2, height := 2, num_mines := 1,
    squares := [Square.default, Square.default_mine, Square.default, Square.default],
    is_populated := true }

theorem claim4_populate_success_witness :
    mineCount c4Board = 1 ∧ c4Board.num_mines = 1 ∧ c4Board.is_populated = true ∧
    (∀ c, (some (⟨0, 0⟩ : Coordinate)) = some c → c.x < (GameBoard.new 2 2).width →
      c.y < (GameBoard.new 2 2).height →
      (c4Board.squares.get? (c.y * (GameBoard.new 2 2).width + c.x)).map Square.is_mine =
        some false) :=
  claim4_populate_success (GameBoard.new 2 2) 1 (some ⟨0, 0⟩) [1] c4Board
    (by decide) (by decide) (by decide) rfl

/-! ### Claim C5: termination of the placement loop -/

/-- On a 2-square board the sampled range `0..len-1` only ever yields index
0, so once two mines are requested the loop can never finish: after the
first placement every draw hits the already-mined cell. -/
theorem placeLoop_two_cells : ∀ (rands : List Nat) (bb : GameBoard),
    bb.squares.length = 2 → ∀ need, 1 ≤ need →
    (2 ≤ need ∨ (bb.squares.get? 0).map Square.is_mine = some true) →
    ∀ b2, placeLoop none bb need rands ≠ some (b2, .ok ()) := by
  intro rands
  induction rands with
  | nil =>
    intro bb hlen need h1 h2 b2
    cases need with
    | zero => omega
    | succ n => simp [placeLoop]
  | cons r rest ih =>
    intro bb hlen need h1 h2 b2 h
    cases need with
    | zero => omega
    | succ n =>
      simp only [placeLoop] at h
      rw [if_neg (by omega)] at h
      have hidx0 : r % (bb.squares.length - 1) = 0 := by
        rw [hlen]
        exact Nat.mod_one r
      rw [hidx0] at h
      obtain ⟨s, hs⟩ : ∃ s, bb.squares.get? 0 = some s :=
        ⟨_, List.get?_eq_get (by omega)⟩
      rw [get_square_by_idx_of_get? bb _ hs] at h
      dsimp only at h
      split at h
      · rename_i hnm
        have hsm : s.is_mine = false := by
          rcases hv : s.is_mine
          · rfl
          · exact absurd hv hnm
        have h2' : 2 ≤ n + 1 := by
          rcases h2 with h2 | h2
          · exact h2
          · rw [hs] at h2
            simp [hsm] at h2
        refine ih _ ?_ n (by omega) ?_ b2 h
        · show (setAt bb.squares 0 (fun _ => Square.default_mine)).length = 2
          rw [setAt_length, hlen]
        · right
          show ((setAt bb.squares 0 fun _ => Square.default_mine).get? 0).map
            Square.is_mine = some true
          rw [setAt_get?_self, hs]
          rfl
      · exact ih bb hlen (n + 1) (by omega) h2 b2 h

/-- C5 counterexample: on the 2×1 board with `n = W×H = 2` (which the claim
says terminates), no sequence of random draws can ever make
`populate_mines_around` return: the sampled range excludes the last cell,
so a second mine can never be placed. -/
theorem claim5_counterexample :
    ¬ ∃ rands b', populate_mines_around (GameBoard.new 2 1) 2 none rands =
      some (b', .ok ()) := by
  rintro ⟨rands, b', h⟩
  unfold populate_mines_around at h
  rw [if_neg (by decide)] at h
  rcases hl : placeLoop none { GameBoard.new 2 1 with num_mines := 2 } 2 rands
    with - | ⟨b2, res⟩
  · rw [hl] at h
    exact absurd h (by simp)
  · rw [hl] at h
    cases res with
    | error e => exact absurd h (by simp)
    | ok u =>
      cases u
      exact placeLoop_two_cells rands _ (by decide) 2 (by omega) (.inl (by omega)) b2 hl

theorem length_filter_ne_range (m k : Nat) :
    ((List.range m).filter (fun i => decide (i ≠ k))).length =
      if k < m then m - 1 else m := by
  induction m with
  | zero => simp
  | succ m ih =>
    rw [List.range_succ, List.filter_append, List.length_append, ih]
    by_cases hmk : m = k
    · subst hmk
      have hone : List.filter (fun i => decide (i ≠ m)) [m] = [] := by simp
      rw [hone]
      simp only [List.length_nil]
      split_ifs <;> omega
    · have hone : List.filter (fun i => decide (i ≠ k)) [m] = [m] := by simp [hmk]
      rw [hone]
      simp only [List.length_cons, List.length_nil]
      split_ifs <;> omega

/-- The board with a fresh mine written into cell `i`. -/
def placeMine (b : GameBoard) (i : Nat) : GameBoard :=
  { b with squares := setAt b.squares i fun _ => Square.default_mine }

/-- Feeding the loop any list of distinct, in-sample-range, unmined,
keep-clear-respecting indices drives it to a successful finish. -/
theorem placeLoop_exists (kcP : Option Coordinate) :
    ∀ (idxs : List Nat) (bb : GameBoard) (need : Nat),
      2 ≤ bb.squares.length → idxs.Nodup →
      (∀ i ∈ idxs, i < bb.squares.length - 1 ∧
        (bb.squares.get? i).map Square.is_mine = some false ∧
        (∀ c, kcP = some c → c ≠ ⟨i % bb.width, i / bb.width⟩)) →
      need ≤ idxs.length →
      ∃ b2, placeLoop kcP bb need idxs = some (b2, .ok ()) := by
  intro idxs
  induction idxs with
  | nil =>
    intro bb need _ _ _ hle
    have hz : need = 0 := by simpa using hle
    subst hz
    exact ⟨bb, rfl⟩
  | cons i rest ih =>
    intro bb need hlen hnd hits hle
    cases need with
    | zero => exact ⟨bb, rfl⟩
    | succ n =>
      have hi := hits i (by simp)
      have hilt : i < bb.squares.length - 1 := hi.1
      have hmod : i % (bb.squares.length - 1) = i := Nat.mod_eq_of_lt hilt
      obtain ⟨s, hs, hsm⟩ : ∃ s, bb.squares.get? i = some s ∧ s.is_mine = false := by
        rcases hg : bb.squares.get? i with - | s
        · have := hi.2.1
          rw [hg] at this
          simp at this
        · refine ⟨s, rfl, ?_⟩
          have := hi.2.1
          rw [hg] at this
          simpa using this
      have hnd' : rest.Nodup := hnd.of_cons
      have hnotmem : i ∉ rest := by
        have := List.nodup_cons.mp hnd
        exact this.1
      have hits' : ∀ j ∈ rest,
          j < (placeMine bb i).squares.length - 1 ∧
          ((placeMine bb i).squares.get? j).map Square.is_mine = some false ∧
          (∀ c, kcP = some c →
            c ≠ ⟨j % (placeMine bb i).width, j / (placeMine bb i).width⟩) := by
        intro j hj
        have hjo := hits j (List.mem_cons_of_mem i hj)
        have hne : j ≠ i := fun he => hnotmem (he ▸ hj)
        refine ⟨?_, ?_, hjo.2.2⟩
        · show j < (setAt bb.squares i fun _ => Square.default_mine).length - 1
          rw [setAt_length]
          exact hjo.1
        · show ((setAt bb.squares i fun _ => Square.default_mine).get? j).map
            Square.is_mine = some false
          rw [setAt_get?_ne _ _ _ _ hne]
          exact hjo.2.1
      have hlen' : 2 ≤ (placeMine bb i).squares.length := by
        show 2 ≤ (setAt bb.squares i fun _ => Square.default_mine).length
        rw [setAt_length]
        exact hlen
      obtain ⟨b2, hb2⟩ := ih (placeMine bb i) n hlen' hnd' hits' (by simpa using hle)
      refine ⟨b2, ?_⟩
      simp only [placeLoop]
      rw [if_neg (by omega), hmod, get_square_by_idx_of_get? bb _ hs]
      cases kcP with
      | none =>
        dsimp only
        rw [if_pos (by simp [hsm])]
        exact hb2
      | some c =>
        rw [show bb.idx_to_xy i = .ok ⟨i % bb.width, i / bb.width⟩ from by
          unfold GameBoard.idx_to_xy
          rw [if_neg (by omega)]]
        dsimp only
        rw [if_pos ⟨by simp [hsm], hi.2.2 c rfl⟩]
        exact hb2

/-- C5 (amended): on a fresh well-formed board the placement loop can
terminate successfully — there is a sequence of draws completing it — iff
enough cells are reachable: the sampled range `0..W×H-1` excludes the last
cell, so `n ≤ W×H − 1` is needed with no keep-clear (refuting the claim's
`n ≤ W×H`), and `n ≤ W×H − 2` always suffices with a keep-clear coordinate;
the loop runs until exactly `n` mines are placed. -/
theorem claim5_placement_amended (b : GameBoard)
    (hlen : b.squares.length = b.width * b.height)
    (hfresh : mineCount b = 0) (n : Nat) :
    (n + 1 ≤ b.width * b.height →
      ∃ rands b', populate_mines_around b n none rands = some (b', .ok ())) ∧
    (∀ c : Coordinate, n + 2 ≤ b.width * b.height →
      ∃ rands b', populate_mines_around b n (some c) rands = some (b', .ok ())) := by
  have hnomine : ∀ i s, b.squares.get? i = some s → s.is_mine = false := by
    intro i s hs
    have hz : b.squares.countP (fun s => s.is_mine) = 0 := hfresh
    rw [List.countP_eq_zero] at hz
    simpa using hz s (List.get?_mem hs)
  constructor
  · intro hb
    rcases n with - | m
    · refine ⟨[], { b with num_mines := 0, is_populated := true }, ?_⟩
      unfold populate_mines_around
      rw [if_neg (by omega)]
      rfl
    · have h2 : 2 ≤ b.squares.length := by omega
      have hrange : ∀ i ∈ List.range (b.squares.length - 1),
          i < ({ b with num_mines := m + 1 } : GameBoard).squares.length - 1 ∧
          (({ b with num_mines := m + 1 } : GameBoard).squares.get? i).map
            Square.is_mine = some false ∧
          (∀ c, (none : Option Coordinate) = some c →
            c ≠ ⟨i % ({ b with num_mines := m + 1 } : GameBoard).width,
                 i / ({ b with num_mines := m + 1 } : GameBoard).width⟩) := by
        intro i hi
        have hilt : i < b.squares.length - 1 := List.mem_range.mp hi
        obtain ⟨s, hs⟩ : ∃ s, b.squares.get? i = some s :=
          ⟨_, List.get?_eq_get (by omega)⟩
        refine ⟨hilt, ?_, fun c hc => nomatch hc⟩
        show (b.squares.get? i).map Square.is_mine = some false
        rw [hs]
        simp [hnomine i s hs]
      obtain ⟨b2, hb2⟩ := placeLoop_exists none (List.range (b.squares.length - 1))
        { b with num_mines := m + 1 } (m + 1) h2 (List.nodup_range _) hrange
        (by rw [List.length_range]; omega)
      refine ⟨List.range (b.squares.length - 1),
        { b2 with is_populated := true }, ?_⟩
      unfold populate_mines_around
      rw [if_neg (by omega), hb2]
  · intro c hb
    rcases n with - | m
    · refine ⟨[], { b with num_mines := 0, is_populated := true }, ?_⟩
      unfold populate_mines_around
      rw [if_neg (by omega)]
      rfl
    · have h2 : 2 ≤ b.squares.length := by omega
      have hnd : ((List.range (b.squares.length - 1)).filter
          (fun i => decide (i ≠ c.y * b.width + c.x))).Nodup :=
        (List.nodup_range _).filter _
      have hrange : ∀ i ∈ (List.range (b.squares.length - 1)).filter
          (fun i => decide (i ≠ c.y * b.width + c.x)),
          i < ({ b with num_mines := m + 1 } : GameBoard).squares.length - 1 ∧
          (({ b with num_mines := m + 1 } : GameBoard).squares.get? i).map
            Square.is_mine = some false ∧
          (∀ c', (some c : Option Coordinate) = some c' →
            c' ≠ ⟨i % ({ b with num_mines := m + 1 } : GameBoard).width,
                  i / ({ b with num_mines := m + 1 } : GameBoard).width⟩) := by
        intro i hi
        obtain ⟨hir, hif⟩ := List.mem_filter.mp hi
        have hilt : i < b.squares.length - 1 := List.mem_range.mp hir
        have hine : i ≠ c.y * b.width + c.x := of_decide_eq_true hif
        obtain ⟨s, hs⟩ : ∃ s, b.squares.get? i = some s :=
          ⟨_, List.get?_eq_get (by omega)⟩
        refine ⟨hilt, ?_, ?_⟩
        · show (b.squares.get? i).map Square.is_mine = some false
          rw [hs]
          simp [hnomine i s hs]
        · intro c' hc'
          obtain rfl : c = c' := by simpa using hc'
          intro hcc
          apply hine
          have hxw : c.x = i % b.width := congrArg Coordinate.x hcc
          have hyw : c.y = i / b.width := congrArg Coordinate.y hcc
          rw [hxw, hyw, Nat.mul_comm, Nat.div_add_mod]
      have hflen : m + 1 ≤ ((List.range (b.squares.length - 1)).filter
          (fun i => decide (i ≠ c.y * b.width + c.x))).length := by
        rw [length_filter_ne_range]
        split_ifs <;> omega
      obtain ⟨b2, hb2⟩ := placeLoop_exists (some c)
        ((List.range (b.squares.length - 1)).filter
          (fun i => decide (i ≠ c.y * b.width + c.x)))
        { b with num_mines := m + 1 } (m + 1) h2 hnd hrange hflen
      refine ⟨(List.range (b.squares.length - 1)).filter
        (fun i => decide (i ≠ c.y * b.width + c.x)),
        { b2 with is_populated := true }, ?_⟩
      unfold populate_mines_around
      rw [if_neg (by omega), hb2]

theorem claim5_placement_amended_witness :
    ((1 : Nat) + 1 ≤ (GameBoard.new 2 2).width * (GameBoard.new 2 2).height →
      ∃ rands b', populate_mines_around (GameBoard.new 2 2) 1 none rands =
        some (b', .ok ())) ∧
    (∀ c : Coordinate, (1 : Nat) + 2 ≤ (GameBoard.new 2 2).width * (GameBoard.new 2 2).height →
      ∃ rands b', populate_mines_around (GameBoard.new 2 2) 1 (some c) rands =
        some (b', .ok ())) :=
  claim5_placement_amended (GameBoard.new 2 2) (by decide) (by decide) 1

/-! ### Claim C6: chord sub-results -/

/-- `chord` always returns (its neighbor sweep cannot run out of canonical
fuel) and only reveals squares. -/
theorem chord_good (b : GameBoard) (x y : Nat) :
    ∃ b' r, chord b x y = some (b', r) ∧ BFrame b b' := by
  unfold chord
  split
  · exact ⟨b, .error .InvalidCoordinates, rfl, bFrame_refl b⟩
  · rcases hcc : b.can_chord_square x y with e | bo
    · exact ⟨b, .error e, rfl, bFrame_refl b⟩
    · cases bo with
      | false => exact ⟨b, .ok .NoChange, rfl, bFrame_refl b⟩
      | true =>
        have H : ∀ bb xx yy, countUnrevealed bb < countUnrevealed b + 1 →
            Good bb (revealF (countUnrevealed b + 1) bb xx yy) :=
          fun bb xx yy hbb => revealF_good (countUnrevealed b + 1) bb xx yy hbb
        obtain ⟨b', rs, heq, hfr, -, -⟩ :=
          neighborsWith_good H offsets x y b (by omega)
        rw [heq]
        exact ⟨b', .ok (.CascadedReveal rs), rfl, hfr⟩

/-- C6 (amended): an out-of-range chord fails with `InvalidCoordinates`; an
in-range non-chordable square gives `NoChange`; a chordable square gives
`CascadedReveal` with exactly 9 sub-results — one per offset of the fixed
`iproduct!(-1..2, -1..2)` enumeration (dx outer, dy inner), the (0,0)
self-offset included — not 8 as the claim states. -/
theorem claim6_chord_amended (b : GameBoard) (x y : Nat) :
    (x ≥ b.width ∨ y ≥ b.height →
      chord b x y = some (b, .error .InvalidCoordinates)) ∧
    (¬(x ≥ b.width ∨ y ≥ b.height) → b.can_chord_square x y = .ok false →
      chord b x y = some (b, .ok .NoChange)) ∧
    (¬(x ≥ b.width ∨ y ≥ b.height) → b.can_chord_square x y = .ok true →
      ∃ b' rs, chord b x y = some (b', .ok (.CascadedReveal rs)) ∧
        rs.length = offsets.length ∧ offsets.length = 9) := by
  refine ⟨?_, ?_, ?_⟩
  · intro hout
    unfold chord
    rw [if_pos hout]
  · intro hin hcc
    unfold chord
    rw [if_neg hin, hcc]
  · intro hin hcc
    unfold chord
    rw [if_neg hin, hcc]
    have H : ∀ bb xx yy, countUnrevealed bb < countUnrevealed b + 1 →
        Good bb (revealF (countUnrevealed b + 1) bb xx yy) :=
      fun bb xx yy hbb => revealF_good (countUnrevealed b + 1) bb xx yy hbb
    obtain ⟨b', rs, heq, -, -, hlen⟩ :=
      neighborsWith_good H offsets x y b (by omega)
    rw [heq]
    exact ⟨b', rs, rfl, hlen, rfl⟩

/-- The length of the sub-result list of a `CascadedReveal` outcome. -/
def resultLen : Option (GameBoard × Except Err PlayResult) → Option Nat
  | some (_, .ok (.CascadedReveal rs)) => some rs.length
  | _ => none

/-- C6 counterexample: chording the (chordable, numeral-0) single square of
an empty 1×1 board yields a `CascadedReveal` of 9 sub-results, not 8. -/
theorem claim6_counterexample :
    GameBoard.can_chord_square (GameBoard.new 1 1) 0 0 = .ok true ∧
    resultLen (chord (GameBoard.new 1 1) 0 0) = some 9 ∧ (9 : Nat) ≠ 8 :=
  ⟨rfl, rfl, by decide⟩

theorem claim6_chord_amended_witness :
    ((0 ≥ (GameBoard.new 1 1).width ∨ 0 ≥ (GameBoard.new 1 1).height →
      chord (GameBoard.new 1 1) 0 0 =
        some (GameBoard.new 1 1, .error .InvalidCoordinates)) ∧
    (¬(0 ≥ (GameBoard.new 1 1).width ∨ 0 ≥ (GameBoard.new 1 1).height) →
      GameBoard.can_chord_square (GameBoard.new 1 1) 0 0 = .ok false →
      chord (GameBoard.new 1 1) 0 0 = some (GameBoard.new 1 1, .ok .NoChange)) ∧
    (¬(0 ≥ (GameBoard.new 1 1).width ∨ 0 ≥ (GameBoard.new 1 1).height) →
      GameBoard.can_chord_square (GameBoard.new 1 1) 0 0 = .ok true →
      ∃ b' rs, chord (GameBoard.new 1 1) 0 0 = some (b', .ok (.CascadedReveal rs)) ∧
        rs.length = offsets.length ∧ offsets.length = 9)) :=
  claim6_chord_amended (GameBoard.new 1 1) 0 0

/-! ### Claim C9: the mine-count invariant -/

theorem countP_setAt_eq (l : List Square) (i : Nat) (f : Square → Square)
    (p : Square → Bool) (hp : ∀ s, p (f s) = p s) :
    (setAt l i f).countP p = l.countP p := by
  induction l generalizing i with
  | nil => rfl
  | cons a t ih =>
    cases i with
    | zero => simp [setAt, List.countP_cons, hp]
    | succ n => simp [setAt, List.countP_cons, ih]

theorem countP_map_eq (l : List Square) (f : Square → Square)
    (p : Square → Bool) (hp : ∀ s, p (f s) = p s) :
    (l.map f).countP p = l.countP p := by
  induction l with
  | nil => rfl
  | cons a t ih => simp [List.countP_cons, hp, ih]

/-- What a successful `populate_mines_around` run guarantees, relative to
the starting board. -/
theorem populate_success_parts (b : GameBoard) (n : Nat) (kc : Option Coordinate)
    (rands : List Nat) (b' : GameBoard)
    (hsucc : populate_mines_around b n kc rands = some (b', .ok ())) :
    mineCount b' = mineCount b + n ∧ b'.num_mines = n ∧ b'.is_populated = true := by
  unfold populate_mines_around at hsucc
  by_cases hn : n > b.width * b.height
  · rw [if_pos hn] at hsucc
    simp at hsucc
  · rw [if_neg hn] at hsucc
    rcases hloop : placeLoop kc { b with num_mines := n } n rands with - | ⟨b2, res⟩
    · rw [hloop] at hsucc
      exact absurd hsucc (by simp)
    · rw [hloop] at hsucc
      cases res with
      | error e => exact absurd hsucc (by simp)
      | ok u =>
        cases u
        simp only [Option.some.injEq, Prod.mk.injEq] at hsucc
        obtain ⟨rfl, -⟩ := hsucc
        obtain ⟨-, -, h3, -, -, h6, -⟩ := placeLoop_ok kc rands _ n b2 hloop
        exact ⟨h6, h3, rfl⟩

/-- C9 (amended): a successful population establishes the invariant "number
of mine squares = `num_mines`" (with `is_populated` set), and the invariant
is preserved by `play`, `reveal`, `chord`, `cascade_from`, `flag`,
`reset_existing` and `flag_all_mines` — but *not* by `reset`, which clears
every mine yet leaves `num_mines` and `is_populated` untouched. -/
theorem claim9_invariant_amended (b : GameBoard) :
    (∀ n kc rands b', mineCount b = 0 →
      populate_mines_around b n kc rands = some (b', .ok ()) →
      mineCount b' = b'.num_mines ∧ b'.is_populated = true) ∧
    (mineCount b = b.num_mines →
      (∀ x y mode, ∃ b' r, play b x y mode = some (b', r) ∧
        mineCount b' = b'.num_mines) ∧
      (∀ x y, ∃ b' r, reveal b x y = some (b', r) ∧ mineCount b' = b'.num_mines) ∧
      (∀ x y, ∃ b' r, chord b x y = some (b', r) ∧ mineCount b' = b'.num_mines) ∧
      (∀ x y, ∃ b' r, cascade_from b x y = some (b', r) ∧
        mineCount b' = b'.num_mines) ∧
      (∀ x y, mineCount (b.flag x y).1 = (b.flag x y).1.num_mines) ∧
      mineCount (GameBoard.reset_existing b) = (GameBoard.reset_existing b).num_mines ∧
      mineCount (GameBoard.flag_all_mines b) = (GameBoard.flag_all_mines b).num_mines) := by
  have hflag : ∀ x y, mineCount (b.flag x y).1 = mineCount b ∧
      (b.flag x y).1.num_mines = b.num_mines := by
    intro x y
    unfold GameBoard.flag
    split
    · exact ⟨rfl, rfl⟩
    · dsimp only
      rcases hg : b.get_square_by_idx (b.xy_to_idx x y) with e | sqr
      · exact ⟨rfl, rfl⟩
      · dsimp only
        split
        · constructor
          · show (setAt b.squares (b.xy_to_idx x y) _).countP (fun s => s.is_mine) =
              b.squares.countP (fun s => s.is_mine)
            exact countP_setAt_eq _ _ _ _ (fun s => rfl)
          · rfl
        · exact ⟨rfl, rfl⟩
  have hreveal : ∀ x y, ∃ b' r, reveal b x y = some (b', r) ∧
      mineCount b' = mineCount b ∧ b'.num_mines = b.num_mines := by
    intro x y
    obtain ⟨b', r, heq, hfr, -⟩ := revealF_good (countUnrevealed b + 1) b x y (by omega)
    exact ⟨b', r, heq, hfr.mineCount_eq, hfr.2.2.1⟩
  have hchord : ∀ x y, ∃ b' r, chord b x y = some (b', r) ∧
      mineCount b' = mineCount b ∧ b'.num_mines = b.num_mines := by
    intro x y
    obtain ⟨b', r, heq, hfr⟩ := chord_good b x y
    exact ⟨b', r, heq, hfr.mineCount_eq, hfr.2.2.1⟩
  refine ⟨?_, ?_⟩
  · intro n kc rands b' hfresh hsucc
    obtain ⟨h1, h2, h3⟩ := populate_success_parts b n kc rands b' hsucc
    rw [h1, h2, hfresh]
    exact ⟨by omega, h3⟩
  · intro hInv
    refine ⟨?_, ?_, ?_, ?_, ?_, ?_, ?_⟩
    · intro x y mode
      cases mode with
      | Flag =>
        refine ⟨(b.flag x y).1, (b.flag x y).2, ?_, ?_⟩
        · show some (b.flag x y) = _
          rfl
        · rw [(hflag x y).1, (hflag x y).2, hInv]
      | Reveal =>
        obtain ⟨b', r, heq, h1, h2⟩ := hreveal x y
        exact ⟨b', r, heq, by rw [h1, h2, hInv]⟩
      | Chord =>
        obtain ⟨b', r, heq, h1, h2⟩ := hchord x y
        exact ⟨b', r, heq, by rw [h1, h2, hInv]⟩
    · intro x y
      obtain ⟨b', r, heq, h1, h2⟩ := hreveal x y
      exact ⟨b', r, heq, by rw [h1, h2, hInv]⟩
    · intro x y
      obtain ⟨b', r, heq, h1, h2⟩ := hchord x y
      exact ⟨b', r, heq, by rw [h1, h2, hInv]⟩
    · intro x y
      have H : ∀ bb xx yy, countUnrevealed bb < countUnrevealed b + 1 →
          Good bb (revealF (countUnrevealed b + 1) bb xx yy) :=
        fun bb xx yy hbb => revealF_good (countUnrevealed b + 1) bb xx yy hbb
      obtain ⟨b', r, heq, hfr, -⟩ := cascadeWith_good H b x y
        (by have := (BFrame_setRevealed b (b.xy_to_idx x y)).countUnrevealed_le; omega)
      exact ⟨b', r, heq, by rw [hfr.mineCount_eq, hfr.2.2.1, hInv]⟩
    · intro x y
      rw [(hflag x y).1, (hflag x y).2, hInv]
    · show (b.squares.map (fun (s : Square) =>
          { s with is_flagged := false, is_revealed := false })).countP
        (fun (s : Square) => s.is_mine) = b.num_mines
      rw [countP_map_eq b.squares
        (fun (s : Square) => { s with is_flagged := false, is_revealed := false })
        (fun (s : Square) => s.is_mine) (fun s => rfl)]
      exact hInv
    · show (b.squares.map (fun (s : Square) =>
          { s with is_flagged := s.is_mine })).countP
        (fun (s : Square) => s.is_mine) = b.num_mines
      rw [countP_map_eq b.squares
        (fun (s : Square) => { s with is_flagged := s.is_mine })
        (fun (s : Square) => s.is_mine) (fun s => rfl)]
      exact hInv

/-- The board produced by placing one mine on a fresh 2×2 board with draw 0
and no keep-clear coordinate. -/
def c9Board : GameBoard :=
  { width := 2, height := 2, num_mines := 1,
    squares := [Square.default_mine, Square.default, Square.default, Square.default],
    is_populated := true }

/-- C9 counterexample: a board populated by the code's own operations
satisfies the invariant, but `reset()` — listed by the claim among the
preserving operations — clears the mine while keeping `num_mines = 1` and
`is_populated = true`, breaking the equality for the life of the instance. -/
theorem claim9_counterexample :
    populate_mines_around (GameBoard.new 2 2) 1 none [0] = some (c9Board, .ok ()) ∧
    mineCount c9Board = c9Board.num_mines ∧
    mineCount (GameBoard.reset c9Board) = 0 ∧
    (GameBoard.reset c9Board).num_mines = 1 ∧
    (GameBoard.reset c9Board).is_populated = true ∧
    (0 : Nat) ≠ 1 :=
  ⟨rfl, rfl, rfl, rfl, rfl, by decide⟩

theorem claim9_invariant_amended_witness :
    ((∀ n kc rands b', mineCount (GameBoard.new 2 2) = 0 →
      populate_mines_around (GameBoard.new 2 2) n kc rands = some (b', .ok ()) →
      mineCount b' = b'.num_mines ∧ b'.is_populated = true) ∧
    (mineCount (GameBoard.new 2 2) = (GameBoard.new 2 2).num_mines →
      (∀ x y mode, ∃ b' r, play (GameBoard.new 2 2) x y mode = some (b', r) ∧
        mineCount b' = b'.num_mines) ∧
      (∀ x y, ∃ b' r, reveal (GameBoard.new 2 2) x y = some (b', r) ∧
        mineCount b' = b'.num_mines) ∧
      (∀ x y, ∃ b' r, chord (GameBoard.new 2 2) x y = some (b', r) ∧
        mineCount b' = b'.num_mines) ∧
      (∀ x y, ∃ b' r, cascade_from (GameBoard.new 2 2) x y = some (b', r) ∧
        mineCount b' = b'.num_mines) ∧
      (∀ x y, mineCount ((GameBoard.new 2 2).flag x y).1 =
        ((GameBoard.new 2 2).flag x y).1.num_mines) ∧
      mineCount (GameBoard.reset_existing (GameBoard.new 2 2)) =
        (GameBoard.reset_existing (GameBoard.new 2 2)).num_mines ∧
      mineCount (GameBoard.flag_all_mines (GameBoard.new 2 2)) =
        (GameBoard.flag_all_mines (GameBoard.new 2 2)).num_mines)) :=
  claim9_invariant_amended (GameBoard.new 2 2)

theorem claim10_flag_all_mines_witness :
    (GameBoard.flag_all_mines (GameBoard.new 2 1)).squares.get? 0 =
      some { is_revealed := false, is_flagged := Square.default.is_mine,
             square_type := Square.default.square_type, numeral := 0 } :=
  (claim10_flag_all_mines (GameBoard.new 2 1)).2.2.2.2.2 0 Square.default rfl

end Minesweeper
